import Mathlib

/-!
Verification of the changelog engine: a shallow embedding of the Markdown
tokenizer, tree builder, renderer, section resolver, item insertion, release
transform and SemVer parser, together with theorems checking the
natural-language specification against this embedding.

Strings are modelled as `List Char`; Rust string primitives (`split`,
`lines`, `trim`, `replace`, ...) are re-implemented with matching semantics.
Rust panics (slice out of bounds, `unwrap` on `None`, `Vec::insert` past the
end) are modelled as explicit error values.
-/

set_option maxHeartbeats 4000000
set_option maxRecDepth 200000

/-- Strings are modelled as lists of characters. -/
abbrev Str := List Char

/-- ASCII lowercasing of a string, used to model both
`eq_ignore_ascii_case` and `to_lowercase` on the ASCII fragment. -/
def lowerStr (s : Str) : Str := s.map Char.toLower

/-- Rust `str::eq_ignore_ascii_case`. -/
def eqIC (a b : Str) : Bool := lowerStr a = lowerStr b

/-- Rust `str::split('\n')`-style split on a single character:
always returns at least one (possibly empty) piece. -/
def splitOnChar (c : Char) : Str → List Str
  | [] => [[]]
  | a :: r =>
    if a = c then [] :: splitOnChar c r
    else
      match splitOnChar c r with
      | [] => [[a]]
      | g :: gs => (a :: g) :: gs

/-- Rust `str::split("\n\n")`: leftmost non-overlapping scan for the
two-newline separator. -/
def splitNN : Str → List Str
  | [] => [[]]
  | [c] => [[c]]
  | c :: d :: rest =>
    if c = '\n' ∧ d = '\n' then [] :: splitNN rest
    else
      match splitNN (d :: rest) with
      | [] => [[c]]
      | g :: gs => (c :: g) :: gs

/-- Does the string contain two consecutive newline characters? -/
def hasNN : Str → Bool
  | [] => false
  | c :: rest => (c = '\n' ∧ rest.head? = some '\n') || hasNN rest

/-- Rust `str::lines`: split on `'\n'`, dropping one trailing empty piece
when the string ends in a newline; the empty string has no lines. -/
def rustLines (s : Str) : List Str :=
  if s = [] then []
  else if s.getLast? = some '\n' then (splitOnChar '\n' s).dropLast
  else splitOnChar '\n' s

/-- Rust `str::trim` (whitespace from both ends). -/
def trimStr (s : Str) : Str :=
  ((s.dropWhile Char.isWhitespace).reverse.dropWhile Char.isWhitespace).reverse

/-- Rust `str::split_once(": ")` generalised: break at the first occurrence
of the two-character separator `": "`, returning the pieces before and after
it, or `none` when the separator does not occur. -/
def breakColonSpace : Str → Option (Str × Str)
  | [] => none
  | c :: rest =>
    if c = ':' ∧ rest.head? = some ' ' then some ([], rest.tail)
    else
      match breakColonSpace rest with
      | some (a, b) => some (c :: a, b)
      | none => none

/-- Does the string contain the separator `": "`? -/
def hasCS : Str → Bool
  | [] => false
  | c :: rest => (c = ':' ∧ rest.head? = some ' ') || hasCS rest

/-- Rust `str::replace(pat, repl)`: replace every leftmost non-overlapping
occurrence of `pat` (assumed non-empty; the empty pattern is returned
unchanged, a case never exercised by the program), written with explicit
fuel so that the scan is a structural recursion. -/
def replaceAllF (pat repl : Str) : Nat → Str → Str
  | _, [] => []
  | 0, s => s
  | fuel + 1, c :: rest =>
    if pat ≠ [] ∧ pat.isPrefixOf (c :: rest) then
      repl ++ replaceAllF pat repl fuel (rest.drop (pat.length - 1))
    else
      c :: replaceAllF pat repl fuel rest

/-- Rust `str::replace(pat, repl)` proper: every step of the scan consumes
at least one character, so fuel `s.length` always suffices. -/
def replaceAll (pat repl s : Str) : Str := replaceAllF pat repl s.length s

/-- Rust `str::split_once('-')`: the part before the first dash and,
when a dash occurs, the part after it. -/
def splitOnceDash : Str → Str × Option Str
  | [] => ([], none)
  | '-' :: r => ([], some r)
  | c :: r =>
    let p := splitOnceDash r
    (c :: p.1, p.2)

/-- Join a list of strings with a separator between consecutive elements
(Rust `Vec::join`). -/
def icatSep (sep : Str) : List Str → Str
  | [] => []
  | [x] => x
  | x :: xs => x ++ sep ++ icatSep sep xs

/-- Drop every trailing newline character (the normalisation applied to the
trailing newline when comparing a rendered document with its input). -/
def stripNL (s : Str) : Str := (s.reverse.dropWhile (fun c => c = '\n')).reverse

/-- Rust `Vec::insert(index, x)` restricted to `index ≤ length` (the panic
for a too-large index is handled by the callers of this helper). -/
def insertAt (n : Nat) (a : α) (l : List α) : List α := l.take n ++ a :: l.drop n

/-! ## Tokens (`src/markdown/tokens.rs`) -/

/-- The token type of the Markdown dialect (`MarkdownToken` in the source).
`ListItem` carries the item text and the preserved leading-whitespace count. -/
inductive MarkdownToken where
  | H1 : Str → MarkdownToken
  | H2 : Str → MarkdownToken
  | H3 : Str → MarkdownToken
  | Paragraph : Str → MarkdownToken
  | UnorderedList : MarkdownToken
  | ListItem : Str → Nat → MarkdownToken
  | Reference : Str → Str → MarkdownToken
  | BlankLine : MarkdownToken
deriving DecidableEq, Repr

/-- Failures of tokenization. `badReference` models the `unwrap` panic on a
reference line with no `": "` (the ParseError of the spec); `panic` models
the byte-slice panics (`&group.trim()[..1]` on an empty or non-ASCII-headed
group, `&name[1..name.len()-1]` on a one-byte name). -/
inductive LexErr where
  | badReference : LexErr
  | panic : LexErr
deriving DecidableEq, Repr

open MarkdownToken in
/-- Classify one line of a structural group (the per-line `match` inside
`MarkdownToken::lex`). -/
def lexLine (line : Str) : Except LexErr MarkdownToken :=
  let spaces := (line.takeWhile Char.isWhitespace).length
  let l := line.dropWhile Char.isWhitespace
  if ("# ".data).isPrefixOf l then .ok (H1 (l.drop 2))
  else if ("## ".data).isPrefixOf l then .ok (H2 (l.drop 3))
  else if ("### ".data).isPrefixOf l then .ok (H3 (l.drop 4))
  else if ("- ".data).isPrefixOf l then .ok (ListItem (l.drop 2) spaces)
  else if l.head? = some '[' then
    match breakColonSpace l with
    | none => .error .badReference
    | some (name, after) =>
      let link := match breakColonSpace after with
        | some (x, _) => x
        | none => after
      if name.length < 2 then .error .panic
      else .ok (Reference (name.drop 1).dropLast link)
  else .ok (Paragraph l)

open MarkdownToken in
/-- Tokenize one blank-line-delimited group: a group whose first non-space
character is `#`, `-` or `[` is classified line by line, any other group is
one opaque paragraph. An all-whitespace group, or one whose first non-space
character is not ASCII, hits the `[..1]` byte-slice panic. -/
def lexGroup (g : Str) : Except LexErr (List MarkdownToken) :=
  match trimStr g with
  | [] => .error .panic
  | c :: _ =>
    if c.toNat ≥ 128 then .error .panic
    else if c = '#' ∨ c = '-' ∨ c = '[' then
      lexLines (rustLines g)
    else .ok [Paragraph g]
where
  /-- Classify each line of a structural group in order, propagating the
  first failure. -/
  lexLines : List Str → Except LexErr (List MarkdownToken)
    | [] => .ok []
    | l :: rest => do
      let t ← lexLine l
      let ts ← lexLines rest
      .ok (t :: ts)

/-- Tokenize each group in order, concatenating the results
(`flat_map` over the groups). -/
def lexGroups : List Str → Except LexErr (List MarkdownToken)
  | [] => .ok []
  | g :: rest => do
    let a ← lexGroup g
    let b ← lexGroups rest
    .ok (a ++ b)

/-- `MarkdownToken::lex`: split the text on `"\n\n"`, drop empty groups,
tokenize every remaining group. -/
def lex (s : Str) : Except LexErr (List MarkdownToken) :=
  lexGroups ((splitNN s).filter (fun g => ¬ g.isEmpty))

open MarkdownToken in
/-- `Display for MarkdownToken`: the exact line (or lines) a token prints.
Headings and paragraphs use `writeln!` and therefore end with a newline;
list items, references and blank lines use `write!` and do not. -/
def tokenStr : MarkdownToken → Str
  | H1 s => "# ".data ++ s ++ ['\n']
  | H2 s => "## ".data ++ s ++ ['\n']
  | H3 s => "### ".data ++ s ++ ['\n']
  | Paragraph s => s ++ ['\n']
  | UnorderedList => []
  | ListItem s indent => List.replicate indent ' ' ++ "- ".data ++ s
  | Reference name link => '[' :: name ++ "]: ".data ++ link
  | BlankLine => []

/-! ## The node tree (`src/markdown/ast.rs`) -/

/-- A tree node: an optional token payload plus ordered children
(`Node` in the source; the root has payload `none`). -/
inductive Node where
  | mk : Option MarkdownToken → List Node → Node
deriving Repr

/-- The payload of a node (field `data`). -/
def Node.data : Node → Option MarkdownToken
  | .mk d _ => d

/-- The ordered children of a node (field `children`). -/
def Node.children : Node → List Node
  | .mk _ cs => cs

/-- `Node::from_token`: a childless leaf holding one token. -/
def Node.fromToken (t : MarkdownToken) : Node := .mk (some t) []

mutual
/-- `Node::find_node`: pre-order depth-first search, first match
(the node itself, then its children left to right). -/
def findNode (p : Node → Bool) : Node → Option Node
  | .mk d cs => if p (.mk d cs) then some (.mk d cs) else findNodeL p cs
/-- Search a list of sibling subtrees left to right. -/
def findNodeL (p : Node → Bool) : List Node → Option Node
  | [] => none
  | c :: cs =>
    match findNode p c with
    | some r => some r
    | none => findNodeL p cs
end

mutual
/-- Apply `f` to the first pre-order node matching `p`
(the effect of mutating through `Node::find_node_mut`). -/
def modifyFirst (p : Node → Bool) (f : Node → Node) : Node → Node
  | .mk d cs => if p (.mk d cs) then f (.mk d cs) else .mk d (modifyFirstL p f cs)
/-- Apply `f` inside the first sibling subtree containing a match. -/
def modifyFirstL (p : Node → Bool) (f : Node → Node) : List Node → List Node
  | [] => []
  | c :: cs =>
    if (findNode p c).isSome then modifyFirst p f c :: cs
    else c :: modifyFirstL p f cs
end

mutual
/-- `Node::flatten`: the token sequence of a subtree. A node holding
`UnorderedList` contributes its children followed by one `BlankLine`
(and not the `UnorderedList` token itself); any other node contributes
its payload (when present) followed by its children. -/
def flatten : Node → List MarkdownToken
  | .mk d cs =>
    match d with
    | some .UnorderedList => flattenL cs ++ [.BlankLine]
    | some t => t :: flattenL cs
    | none => flattenL cs
/-- Flatten a list of sibling subtrees in order. -/
def flattenL : List Node → List MarkdownToken
  | [] => []
  | c :: cs => flatten c ++ flattenL cs
end

/-- `Display for Node`: print every flattened token and join the pieces
with single newlines. -/
def render (n : Node) : Str := icatSep ['\n'] ((flatten n).map tokenStr)

/-- Is the next token a stop for the currently open heading? This is the
`match (parent, tokens.peek())` table of the tree builder: a heading closes
at the next heading of lower-or-equal level, and any open subtree closes at
a reference definition. -/
def stopsAt (parent : MarkdownToken) (peek : Option MarkdownToken) : Bool :=
  match parent, peek with
  | .H1 _, some (.H1 _) => true
  | .H2 _, some (.H2 _) => true
  | .H2 _, some (.H1 _) => true
  | .H3 _, some (.H3 _) => true
  | .H3 _, some (.H2 _) => true
  | .H3 _, some (.H1 _) => true
  | _, some (.Reference _ _) => true
  | _, _ => false

/-- Stop check including the root case (no open parent never stops). -/
def shouldStop (parent : Option MarkdownToken) (peek : Option MarkdownToken) : Bool :=
  match parent with
  | none => false
  | some par => stopsAt par peek

/-- Is the token a `ListItem`? (the builder's look-ahead while absorbing a
list group). -/
def isLI : MarkdownToken → Bool
  | .ListItem _ _ => true
  | _ => false

/-- The recursive-descent tree builder (`parse` in `ast.rs`), written with
explicit fuel; every recursive call consumes at least one token, so fuel
`length + 1` always suffices (`buildNodes` below). Returns the nodes built
so far together with the unconsumed tokens. -/
def buildF : Nat → List MarkdownToken → Option MarkdownToken → List Node × List MarkdownToken
  | 0, ts, _ => ([], ts)
  | _ + 1, [], _ => ([], [])
  | fuel + 1, t :: rest, parent =>
    let step : Node × List MarkdownToken :=
      match t with
      | .H1 s =>
        let r := buildF fuel rest (some (.H1 s))
        (.mk (some (.H1 s)) r.1, r.2)
      | .H2 s =>
        let r := buildF fuel rest (some (.H2 s))
        (.mk (some (.H2 s)) r.1, r.2)
      | .H3 s =>
        let r := buildF fuel rest (some (.H3 s))
        (.mk (some (.H3 s)) r.1, r.2)
      | .ListItem s i =>
        (.mk (some .UnorderedList)
          (Node.fromToken (.ListItem s i) :: (rest.takeWhile isLI).map Node.fromToken),
         rest.dropWhile isLI)
      | other => (Node.fromToken other, rest)
    if shouldStop parent step.2.head? then ([step.1], step.2)
    else
      let r := buildF fuel step.2 parent
      (step.1 :: r.1, r.2)

/-- Build the forest for a token list (fuel instantiated once and for all). -/
def buildNodes (ts : List MarkdownToken) (parent : Option MarkdownToken) : List Node × List MarkdownToken :=
  buildF (ts.length + 1) ts parent

/-- `Node::from_str`: lex the text and build the rooted tree
(root payload `none`). -/
def parseDoc (s : Str) : Except LexErr Node :=
  (lex s).map (fun ts => .mk none (buildNodes ts none).1)

/-! ## SemVer (`src/package.rs`) -/

/-- `SemVer { major, minor, patch, pre_release }`. -/
structure SemVer where
  major : Nat
  minor : Nat
  patch : Nat
  pre_release : Option Str
deriving DecidableEq, Repr

/-- The distinct causes a version literal can fail to parse with
(the four `eyre!` / `ParseIntError` exits of `FromStr for SemVer`;
`nonNumeric` stands for any `u64` parse failure of a component). -/
inductive SemVerErr where
  | missingMajor : SemVerErr
  | missingMinor : SemVerErr
  | missingPatch : SemVerErr
  | nonNumeric : SemVerErr
deriving DecidableEq, Repr

/-- Is the character an ASCII digit, and its value. -/
def digitVal (c : Char) : Option Nat :=
  if '0' ≤ c ∧ c ≤ '9' then some (c.toNat - '0'.toNat) else none

/-- Rust `str::parse::<u64>()`: an optional leading `+`, then one or more
ASCII digits, with values at or above `2^64` overflowing
(any failure is reported as `none`). -/
def parse_u64 (s : Str) : Option Nat :=
  let core := match s with
    | '+' :: rest => rest
    | other => other
  if core = [] then none
  else
    (core.foldl (fun acc c =>
      match acc, digitVal c with
      | some a, some d => some (a * 10 + d)
      | _, _ => none) (some 0)).bind
      (fun v => if v < 2 ^ 64 then some v else none)

/-- The version-literal branch of `FromStr for SemVer`: split once on `-`
into core and pre-release, split the core on `.`, and read the first three
components as `u64` (extra components are ignored). The keyword branches
(`major`/`minor`/`patch`/`infer`) delegate to the package manifest, an
external collaborator, and are not part of the parser. -/
def semver_parse (s : Str) : Except SemVerErr SemVer :=
  let sp := splitOnceDash s
  let parts := splitOnChar '.' sp.1
  match parts[0]?, parts[1]?, parts[2]? with
  | some a, some b, some c =>
    match parse_u64 a, parse_u64 b, parse_u64 c with
    | some x, some y, some z => .ok ⟨x, y, z, sp.2⟩
    | _, _, _ => .error .nonNumeric
  | none, _, _ => .error .missingMajor
  | some _, none, _ => .error .missingMinor
  | some _, some _, none => .error .missingPatch

/-- `Display for SemVer` (`major.minor.patch[-prerelease]`). -/
def semverStr (v : SemVer) : Str :=
  (Nat.repr v.major).data ++ ".".data ++ (Nat.repr v.minor).data ++ ".".data ++ (Nat.repr v.patch).data
    ++ (match v.pre_release with
        | some p => '-' :: p
        | none => [])

/-! ## Changelog operations (`src/changelog.rs`) -/

/-- The projection of `PackageJSON` the changelog operations consult:
the package name and whether it is the workspace root. -/
structure Pkg where
  name : Str
  isRoot : Bool
deriving DecidableEq, Repr

/-- `Changelog::unreleased_heading`: `[Unreleased]` or
`[Unreleased - scope]`. -/
def unreleased_heading : Option Pkg → Str
  | some sc => "[Unreleased - ".data ++ sc.name ++ "]".data
  | none => "[Unreleased]".data

/-- Modelled from the spec: `rename_heading(text)` is invoked by
`Changelog::release` but its definition is absent from the sources here
(only callers exist). Spec 4.3: it "replaces only a Heading node's text
payload in place; no-op elsewhere". -/
def rename_heading (text : Str) : Node → Node
  | .mk d cs =>
    match d with
    | some (.H1 _) => .mk (some (.H1 text)) cs
    | some (.H2 _) => .mk (some (.H2 text)) cs
    | some (.H3 _) => .mk (some (.H3 text)) cs
    | other => .mk other cs

/-- Failures of the mutating changelog operations: `missingVersion` is the
`eyre!("Couldn't find latest version, ...")` error of `release`; `panic`
models the `expect` on a childless root and the `Vec::insert(2, _)` panic
when the first child has fewer than two children. -/
inductive RelErr where
  | missingVersion : RelErr
  | panic : RelErr
deriving DecidableEq, Repr

/-- Does the node hold an `UnorderedList` payload? -/
def isULNode (n : Node) : Bool :=
  match n.data with
  | some .UnorderedList => true
  | _ => false

/-- Is the node a level-2 heading equal (ASCII case-insensitively) to the
given heading text? -/
def isH2Named (heading : Str) (n : Node) : Bool :=
  match n.data with
  | some (.H2 name) => eqIC name heading
  | _ => false

/-- Is the node a level-3 heading equal (ASCII case-insensitively) to the
given section name? -/
def isH3Named (sectionName : Str) (n : Node) : Bool :=
  match n.data with
  | some (.H3 name) => eqIC name sectionName
  | _ => false

/-- Does the node hold any level-3 heading payload? -/
def isH3Node (n : Node) : Bool :=
  match n.data with
  | some (.H3 _) => true
  | _ => false

/-- A childless list-item leaf with indent 0 (how insertion builds items). -/
def liNode (item : Str) : Node := Node.fromToken (.ListItem item 0)

/-- The mutation `add_list_item_to_section_scope` performs through its
mutable handle on the found Unreleased node: drop the first immediate
`UnorderedList` child (whatever it holds), then find-or-create the H3
section and its list group and append the new item. -/
def addInsert (section_name item : Str) (u : Node) : Node :=
  let u1 : Node := .mk u.data (u.children.eraseP isULNode)
  match findNode (isH3Named section_name) u1 with
  | some _ =>
    modifyFirst (isH3Named section_name) (fun sec =>
      match findNode isULNode sec with
      | some _ =>
        modifyFirst isULNode (fun ul => .mk ul.data (ul.children ++ [liNode item])) sec
      | none =>
        .mk sec.data (sec.children ++ [.mk (some .UnorderedList) [liNode item]])) u1
  | none =>
    .mk u1.data (u1.children ++
      [.mk (some (.H3 section_name)) [.mk (some .UnorderedList) [liNode item]]])

/-- `Changelog::add_list_item_to_section_scope`: find the Unreleased H2 for
the scope and apply `addInsert` to it; when no Unreleased heading exists,
build a fresh section and insert it at index 2 under the root's first child
(panicking when there is no first child or it has fewer than two
children). -/
def add_list_item_to_section_scope (section_name item : Str) (scope : Option Pkg)
    (root : Node) : Except RelErr Node :=
  let uh := unreleased_heading scope
  match findNode (isH2Named uh) root with
  | some _ =>
    .ok (modifyFirst (isH2Named uh) (addInsert section_name item) root)
  | none =>
    let newSec : Node :=
      .mk (some (.H2 uh)) [.mk (some (.H3 section_name)) [.mk (some .UnorderedList) [liNode item]]]
    match root.children with
    | [] => .error .panic
    | c0 :: cs =>
      if c0.children.length < 2 then .error .panic
      else .ok (.mk root.data (.mk c0.data (insertAt 2 newSec c0.children) :: cs))

/-- `Changelog::add_list_item_to_section` (the public entry, `edit = false`
path; `edit = true` invokes the external editor, an external collaborator):
note that it passes the literal `None` as the scope of the inner call,
discarding its `scope` argument. -/
def add_list_item_to_section (section_name item : Str) (_scope : Option Pkg)
    (root : Node) : Except RelErr Node :=
  add_list_item_to_section_scope section_name item none root

/-- The selector predicate of `get_contents_of_section_scope` (the closure
passed to `find_node`): a level-2 node matching the absent / "latest" /
explicit-version selector for the scope. -/
def sectionPred (name : Option Str) (scope : Option Pkg) (node : Node) : Bool :=
  match node.data with
  | some (.H2 sn) =>
    match name with
    | some nm =>
      if eqIC nm "latest".data then ¬ eqIC sn (unreleased_heading scope)
      else
        match scope with
        | some sc =>
          if ¬ sc.isRoot then
            (('[' :: sc.name ++ "@v".data ++ lowerStr nm ++ "]".data)).isPrefixOf (lowerStr sn)
          else (('[' :: lowerStr nm ++ "]".data)).isPrefixOf (lowerStr sn)
        | none => (('[' :: lowerStr nm ++ "]".data)).isPrefixOf (lowerStr sn)
    | none =>
      if eqIC sn (unreleased_heading scope) then (findNode isH3Node node).isSome
      else true
  | _ => false

/-- `Changelog::get_contents_of_section_scope`: resolve a selector to the
first matching level-2 node and return a copy of it with the payload
cleared. -/
def get_contents_of_section_scope (name : Option Str) (scope : Option Pkg)
    (root : Node) : Option Node :=
  match findNode (sectionPred name scope) root with
  | some node => some (.mk none node.children)
  | none => none

/-- Is the node a reference definition whose name does not start
(lower-cased) with "unreleased"? -/
def isLatestRef (n : Node) : Bool :=
  match n.data with
  | some (.Reference nm _) => ¬ (("unreleased".data).isPrefixOf (lowerStr nm))
  | _ => false

/-- Is the node the Unreleased reference definition
(name ASCII case-insensitively equal to "Unreleased")? -/
def isUnreleasedRef (n : Node) : Bool :=
  match n.data with
  | some (.Reference nm _) => eqIC nm "Unreleased".data
  | _ => false

/-- `Changelog::find_latest_version`: the name of the first pre-order
reference definition whose name does not start with "unreleased". -/
def find_latest_version (root : Node) : Option Str :=
  match findNode isLatestRef root with
  | some n =>
    match n.data with
    | some (.Reference nm _) => some nm
    | _ => none
  | none => none

/-- `Changelog::release`: rename the (unscoped) Unreleased heading to
`[version] - date`, insert a fresh placeholder Unreleased section at index
2 under the root's first child, rewrite the Unreleased reference URL by
substituting the new version for the previous latest one, and insert the
new version's reference (the Unreleased URL with `HEAD` replaced by the
version tag) before the first non-Unreleased reference among the root's
children, or append it. `date` abstracts `Local::now().format("%Y-%m-%d")`.
When no Unreleased heading exists the tree is returned unchanged.
`releaseFinish` is the reference-updating tail of the operation, applied to
the tree with the heading renamed and the fresh placeholder section already
inserted at index 2; `releaseInsertRef` is its reference-insertion step
once the Unreleased reference's name and link are in hand. -/
def releaseInsertRef (version : SemVer) (scope : Option Pkg) (root2 : Node)
    (oldVersion nm link : Str) : Except RelErr Node :=
  let updatedLink := replaceAll oldVersion (semverStr version) link
  let tag : Str := match scope with
    | some sc =>
      if ¬ sc.isRoot then sc.name ++ "@v".data ++ semverStr version
      else 'v' :: semverStr version
    | none => 'v' :: semverStr version
  let newLink := replaceAll ("HEAD".data) tag link
  let root3 := modifyFirst isUnreleasedRef
    (fun n => .mk (some (.Reference nm updatedLink)) n.children) root2
  let newRef : Node := Node.fromToken (.Reference (semverStr version) newLink)
  match root3.children.findIdx? isLatestRef with
  | some idx => .ok (.mk root3.data (insertAt idx newRef root3.children))
  | none => .ok (.mk root3.data (root3.children ++ [newRef]))

def releaseFinish (version : SemVer) (scope : Option Pkg) (root2 : Node) :
    Except RelErr Node :=
  match find_latest_version root2 with
  | none => .error .missingVersion
  | some oldVersion =>
    match findNode isUnreleasedRef root2 with
    | none => .ok root2
    | some uref =>
      match uref.data with
      | some (.Reference nm link) => releaseInsertRef version scope root2 oldVersion nm link
      | _ => .ok root2

def release (version : SemVer) (scope : Option Pkg) (date : Str)
    (root : Node) : Except RelErr Node :=
  let uh := unreleased_heading none
  match findNode (isH2Named uh) root with
  | none => .ok root
  | some _ =>
    let root1 := modifyFirst (isH2Named uh)
      (rename_heading ('[' :: semverStr version ++ "] - ".data ++ date)) root
    let newU : Node :=
      .mk (some (.H2 uh)) [.mk (some .UnorderedList) [liNode ("Nothing yet!".data)]]
    match root1.children with
    | [] => .error .panic
    | c0 :: cs =>
      if c0.children.length < 2 then .error .panic
      else releaseFinish version scope
        (.mk root1.data (.mk c0.data (insertAt 2 newU c0.children) :: cs))

/-! ## Lemmas about the splitting helpers -/

/-- Splitting on a character always yields at least one piece. -/
theorem splitOnChar_ne_nil (c : Char) (s : Str) : splitOnChar c s ≠ [] := by
  induction s with
  | nil => simp [splitOnChar]
  | cons a r ih =>
    simp only [splitOnChar]
    by_cases h : a = c
    · simp [h]
    · simp only [h, if_false]
      cases hr : splitOnChar c r with
      | nil => simp
      | cons g gs => simp

/-- The number of pieces is the number of separator occurrences plus one. -/
theorem length_splitOnChar (c : Char) (s : Str) :
    (splitOnChar c s).length = s.count c + 1 := by
  induction s with
  | nil => simp [splitOnChar]
  | cons a r ih =>
    simp only [splitOnChar]
    by_cases h : a = c
    · simp [h, List.count_cons, ih]
    · simp only [h, if_false]
      cases hr : splitOnChar c r with
      | nil => exact absurd hr (splitOnChar_ne_nil c r)
      | cons g gs =>
        rw [hr] at ih
        simp only [List.length_cons] at ih ⊢
        simp [List.count_cons, h, ih]

/-! ## C8: SemVer parse-error causes -/

/-- C8 counterexample: the empty input — whose major (and every other)
component is missing — is reported as a missing *minor* version, not as
MissingMajor; the claim that a missing major component yields the
MissingMajor cause is false. -/
theorem c8_counterexample :
    semver_parse [] = .error .missingMinor ∧
    (Except.error SemVerErr.missingMinor : Except SemVerErr SemVer) ≠ .error .missingMajor := by
  constructor
  · rfl
  · intro h
    simp at h

/-- C8 (amended): the four causes are pairwise distinct; an input with no
dot in its pre-dash core (hence with no minor component) is reported as
MissingMinor, one with exactly one dot (no patch component) as
MissingPatch, and a first, second or third dot-separated component that
fails to parse as `u64` is reported as NonNumeric (without identifying the
component); when the first three components parse, parsing succeeds with
those values. The MissingMajor cause is unreachable: splitting always
yields a first component, so `semver_parse` never returns it. -/
theorem c8_semver_causes (s : Str) :
    (semver_parse s ≠ .error .missingMajor) ∧
    (((splitOnceDash s).1).count '.' = 0 → semver_parse s = .error .missingMinor) ∧
    (((splitOnceDash s).1).count '.' = 1 → semver_parse s = .error .missingPatch) ∧
    (∀ a b c rest, splitOnChar '.' (splitOnceDash s).1 = a :: b :: c :: rest →
      (((parse_u64 a).isNone ∨ (parse_u64 b).isNone ∨ (parse_u64 c).isNone) →
        semver_parse s = .error .nonNumeric) ∧
      (∀ x y z, parse_u64 a = some x → parse_u64 b = some y → parse_u64 c = some z →
        semver_parse s = .ok ⟨x, y, z, (splitOnceDash s).2⟩)) := by
  have hne := splitOnChar_ne_nil '.' (splitOnceDash s).1
  have hlen := length_splitOnChar '.' (splitOnceDash s).1
  rcases hp : splitOnChar '.' (splitOnceDash s).1 with _ | ⟨a, _ | ⟨b, _ | ⟨c, rest⟩⟩⟩
  · exact absurd hp hne
  · rw [hp] at hlen
    simp only [List.length_cons, List.length_nil] at hlen
    refine ⟨?_, ?_, ?_, ?_⟩
    · simp [semver_parse, hp]
    · intro _
      simp [semver_parse, hp]
    · intro hcount
      omega
    · intro a' b' c' rest' hcontr
      simp at hcontr
  · rw [hp] at hlen
    simp only [List.length_cons, List.length_nil] at hlen
    refine ⟨?_, ?_, ?_, ?_⟩
    · simp [semver_parse, hp]
    · intro hcount
      omega
    · intro _
      simp [semver_parse, hp]
    · intro a' b' c' rest' hcontr
      simp at hcontr
  · rw [hp] at hlen
    simp only [List.length_cons] at hlen
    refine ⟨?_, ?_, ?_, ?_⟩
    · cases ha : parse_u64 a <;> cases hb : parse_u64 b <;> cases hc : parse_u64 c <;>
        simp [semver_parse, hp, ha, hb, hc]
    · intro hcount
      omega
    · intro hcount
      omega
    · intro a' b' c' rest' heq
      simp only [List.cons.injEq] at heq
      obtain ⟨rfl, rfl, rfl, rfl⟩ := heq
      constructor
      · intro hnone
        rcases hnone with h | h | h
        · rw [Option.isNone_iff_eq_none] at h
          simp [semver_parse, hp, h]
        · rw [Option.isNone_iff_eq_none] at h
          cases ha : parse_u64 a <;> simp [semver_parse, hp, ha, h]
        · rw [Option.isNone_iff_eq_none] at h
          cases ha : parse_u64 a <;> cases hb : parse_u64 b <;>
            simp [semver_parse, hp, ha, hb, h]
      · intro x y z hx hy hz
        simp [semver_parse, hp, hx, hy, hz]

/-- C8 witness: concrete instances of the amended causes, obtained from
`c8_semver_causes`: "7" misses its minor component, "7.1" its patch,
"7.x.0" has a non-numeric component and "1.4.7-rc.1" parses fully. -/
theorem c8_semver_causes_witness :
    (semver_parse ("7".data) = .error .missingMinor) ∧
    (semver_parse ("7.1".data) = .error .missingPatch) ∧
    (semver_parse ("7.x.0".data) = .error .nonNumeric) ∧
    (semver_parse ("1.4.7-rc.1".data) = .ok ⟨1, 4, 7, some ("rc.1".data)⟩) := by
  refine ⟨?_, ?_, ?_, ?_⟩
  · exact (c8_semver_causes ("7".data)).2.1 (by decide)
  · exact (c8_semver_causes ("7.1".data)).2.2.1 (by decide)
  · exact ((c8_semver_causes ("7.x.0".data)).2.2.2 ("7".data) ("x".data) ("0".data) []
      (by decide)).1 (by decide)
  · exact ((c8_semver_causes ("1.4.7-rc.1".data)).2.2.2 ("1".data) ("4".data) ("7".data) []
      (by decide)).2 1 4 7 (by decide) (by decide) (by decide)

/-! ## C9: a reference line with no `": "` fails tokenization -/

/-- A string that contains no `": "` cannot be broken at it. -/
theorem breakColonSpace_eq_none {s : Str} (h : hasCS s = false) :
    breakColonSpace s = none := by
  induction s with
  | nil => rfl
  | cons c rest ih =>
    simp only [hasCS, Bool.or_eq_false_iff, decide_eq_false_iff_not] at h
    simp only [breakColonSpace, if_neg h.1, ih h.2]

/-- A line whose trimmed start begins with `[` and contains no `": "` is
classified as a bad reference. -/
theorem lexLine_badReference {line t : Str}
    (hl : line.dropWhile Char.isWhitespace = '[' :: t)
    (hsplit : breakColonSpace ('[' :: t) = none) :
    lexLine line = .error .badReference := by
  have h1 : (("# ".data).isPrefixOf ('[' :: t)) = false := rfl
  have h2 : (("## ".data).isPrefixOf ('[' :: t)) = false := rfl
  have h3 : (("### ".data).isPrefixOf ('[' :: t)) = false := rfl
  have h4 : (("- ".data).isPrefixOf ('[' :: t)) = false := rfl
  simp only [lexLine, hl, h1, h2, h3, h4, Bool.false_eq_true, if_false, List.head?_cons,
    Option.some.injEq, if_true, hsplit]

/-- A failing line makes the whole line traversal of its group fail. -/
theorem lexLines_error {ls : List Str} {line : Str} {e0 : LexErr}
    (hmem : line ∈ ls) (herr : lexLine line = .error e0) :
    ∃ e, lexGroup.lexLines ls = .error e := by
  induction ls with
  | nil => cases hmem
  | cons hd tl ih =>
    cases hhd : lexLine hd with
    | error e1 => exact ⟨e1, by simp only [lexGroup.lexLines, hhd]; rfl⟩
    | ok tok =>
      rcases List.mem_cons.mp hmem with rfl | htl
      · rw [herr] at hhd
        cases hhd
      · obtain ⟨e, he⟩ := ih htl
        exact ⟨e, by simp only [lexGroup.lexLines, hhd, he]; rfl⟩

/-- A failing group makes the whole group traversal fail. -/
theorem lexGroups_error {gs : List Str} {g : Str} {e0 : LexErr}
    (hmem : g ∈ gs) (herr : lexGroup g = .error e0) :
    ∃ e, lexGroups gs = .error e := by
  induction gs with
  | nil => cases hmem
  | cons hd tl ih =>
    cases hhd : lexGroup hd with
    | error e1 => exact ⟨e1, by simp only [lexGroups, hhd]; rfl⟩
    | ok toks =>
      rcases List.mem_cons.mp hmem with rfl | htl
      · rw [herr] at hhd
        cases hhd
      · obtain ⟨e, he⟩ := ih htl
        exact ⟨e, by simp only [lexGroups, hhd, he]; rfl⟩

/-- C9: for every input containing a group classified as structural (first
non-space character `#`, `-` or `[`), a line of that group beginning (after
leading whitespace) with `[` that cannot be split on the first literal
`": "` makes tokenization of the whole text fail. -/
theorem c9_bad_reference_fails (s g line t : Str)
    (hg : g ∈ (splitNN s).filter (fun x => ¬ x.isEmpty))
    (hstruct : ∃ c rest, trimStr g = c :: rest ∧ (c = '#' ∨ c = '-' ∨ c = '['))
    (hline : line ∈ rustLines g)
    (hl : line.dropWhile Char.isWhitespace = '[' :: t)
    (hsplit : breakColonSpace ('[' :: t) = none) :
    ∃ e, lex s = .error e := by
  obtain ⟨c, rest, htrim, hcset⟩ := hstruct
  have hlineErr := lexLine_badReference hl hsplit
  obtain ⟨e1, hlines⟩ := lexLines_error hline hlineErr
  have hgroup : lexGroup g = .error e1 := by
    have hascii : (c.toNat ≥ 128) = False := by
      rcases hcset with rfl | rfl | rfl <;> simp
    have hset : (c = '#' ∨ c = '-' ∨ c = '[') := hcset
    simp only [lexGroup, htrim, hascii, if_false, if_pos hset, hlines]
  obtain ⟨e, hgs⟩ := lexGroups_error hg hgroup
  exact ⟨e, by simpa [lex] using hgs⟩

/-- C9 witness: the single-group input `[bad reference line` satisfies the
hypotheses concretely and indeed fails to tokenize. -/
theorem c9_bad_reference_fails_witness :
    (("[bad reference line".data) ∈
      (splitNN ("[bad reference line".data)).filter (fun x => ¬ x.isEmpty)) ∧
    (∃ e, lex ("[bad reference line".data) = .error e) :=
  ⟨by decide,
   c9_bad_reference_fails ("[bad reference line".data) ("[bad reference line".data)
     ("[bad reference line".data) ("bad reference line".data)
     (by decide) ⟨'[', ("bad reference line".data), by decide, by decide⟩
     (by decide) (by decide) (by decide)⟩

/-! ## Concrete documents for the insertion and release claims -/

/-- The tree of a document, with an empty root when parsing fails (the CLI
aborts on a parse failure before any of the operations below run). -/
def parsedOr (s : Str) : Node :=
  match parseDoc s with
  | .ok n => n
  | .error _ => .mk none []

/-- A document whose Unreleased section's immediate child is a list group
holding a real (non-placeholder) item. -/
def dC5 : Str :=
  ("# Changelog\n\nA.\n\nB.\n\n## [Unreleased]\n\n- Important work\n\n### Added\n\n- Old").data

/-- A document with both a scoped and an unscoped Unreleased section. -/
def dC7 : Str :=
  ("# Changelog\n\nA.\n\nB.\n\n## [Unreleased - pkg]\n\n### Added\n\n- Old scoped\n\n## [Unreleased]\n\n- Nothing yet!").data

/-- The release scenario of the spec: an Unreleased compare reference for
v1.1.0 and a latest release 1.1.0. -/
def dRel : Str :=
  ("# Changelog\n\nA.\n\nB.\n\n## [Unreleased]\n\n- Nothing yet!\n\n## [1.1.0] - 2024-01-01\n\n### Added\n\n- Old\n\n[unreleased]: https://github.com/o/r/compare/v1.1.0...HEAD\n[1.1.0]: https://github.com/o/r/releases/tag/v1.1.0").data

/-- Does the subtree contain a list item with exactly this text? -/
def hasItem (txt : Str) (n : Node) : Bool :=
  (findNode (fun m => m.data = some (.ListItem txt 0)) n).isSome

/-! ## C5: the placeholder check does not look at the list's contents -/

/-- C5: the source comment says the insertion searches for the
"Nothing yet!" note and deletes it, but the code removes the Unreleased
section's first immediate list-group child whatever it holds: on `dC5`,
whose Unreleased section starts with a list holding "Important work", one
`add` call silently deletes that item while appending the new one. -/
theorem c5_removes_nonplaceholder_list :
    (parseDoc dC5).map (hasItem ("Important work".data)) = .ok true ∧
    (parseDoc dC5).map
      (fun r => (add_list_item_to_section_scope ("Added".data) ("New".data) none r).map
        (fun r2 => (hasItem ("Important work".data) r2,
                    hasItem ("New".data) r2,
                    hasItem ("Old".data) r2)))
      = .ok (.ok (false, true, true)) :=
  ⟨rfl, rfl⟩

/-! ## C7: the public insertion entry point discards its scope -/

/-- C7: `add_list_item_to_section` passes the literal `None` as scope to
`add_list_item_to_section_scope`, so on `dC7` — which has both an
`[Unreleased - pkg]` and an `[Unreleased]` section — an add scoped to `pkg`
lands under the plain `[Unreleased]` heading and leaves the scoped section
untouched. -/
theorem c7_scope_discarded :
    (parseDoc dC7).map
      (fun r => (add_list_item_to_section ("Added".data) ("New".data)
          (some ⟨"pkg".data, false⟩) r).map
        (fun r2 => ((findNode (isH2Named ("[Unreleased - pkg]".data)) r2).map (hasItem ("New".data)),
                    (findNode (isH2Named ("[Unreleased]".data)) r2).map (hasItem ("New".data)))))
      = .ok (.ok (some false, some true)) :=
  rfl

/-! ## C2: the release heading ignores the scope -/

/-- C2 counterexample: a scoped release renames the Unreleased heading to
`[1.2.0] - date`, not to the claimed `[pkg@1.2.0] - date`. -/
theorem c2_counterexample :
    (parseDoc dRel).map
      (fun r => (release ⟨1, 2, 0, none⟩ (some ⟨"pkg".data, false⟩) ("2024-06-01".data) r).map
        (fun r2 => ((findNode (isH2Named ("[pkg@1.2.0] - 2024-06-01".data)) r2).isSome,
                    (findNode (isH2Named ("[1.2.0] - 2024-06-01".data)) r2).isSome)))
      = .ok (.ok (false, true)) :=
  rfl

/-- The tag the release substitutes for `HEAD` in the new reference URL:
`scope@vVERSION` for a non-root scope, `vVERSION` otherwise. -/
def relTag (scope : Option Pkg) (v : SemVer) : Str :=
  match scope with
  | some sc => if ¬ sc.isRoot then sc.name ++ "@v".data ++ semverStr v else 'v' :: semverStr v
  | none => 'v' :: semverStr v

/-- The full output of `release v scope date` on the `dRel` document. -/
def c2Expected (v : SemVer) (scope : Option Pkg) (date : Str) : Node :=
  .mk none
    [.mk (some (.H1 ("Changelog".data)))
      [.mk (some (.Paragraph ("A.".data))) [],
       .mk (some (.Paragraph ("B.".data))) [],
       .mk (some (.H2 ("[Unreleased]".data)))
         [.mk (some .UnorderedList) [liNode ("Nothing yet!".data)]],
       .mk (some (.H2 ('[' :: semverStr v ++ "] - ".data ++ date)))
         [.mk (some .UnorderedList) [liNode ("Nothing yet!".data)]],
       .mk (some (.H2 ("[1.1.0] - 2024-01-01".data)))
         [.mk (some (.H3 ("Added".data)))
           [.mk (some .UnorderedList) [liNode ("Old".data)]]]],
     .mk (some (.Reference ("unreleased".data)
       ("https://github.com/o/r/compare/v".data ++ semverStr v ++ "...HEAD".data))) [],
     .mk (some (.Reference (semverStr v)
       ("https://github.com/o/r/compare/v1.1.0...".data ++ relTag scope v))) [],
     .mk (some (.Reference ("1.1.0".data)
       ("https://github.com/o/r/releases/tag/v1.1.0".data))) []]

/-- C2 (amended): for every version, scope and date, the release renames
the Unreleased heading to `[version] - date` — the scope never appears in
the heading — and re-inserts a fresh Unreleased heading with a single
placeholder list at index 2 under the root's first child; the scope only
selects the tag substituted into the new reference URL. -/
theorem c2_release_heading_and_placeholder :
    (parseDoc dRel).isOk = true ∧
    ∀ (v : SemVer) (scope : Option Pkg) (date : Str),
      release v scope date (parsedOr dRel) = .ok (c2Expected v scope date) := by
  refine ⟨rfl, ?_⟩
  intro v scope date
  simp only [c2Expected]
  rw [← List.append_nil (relTag scope v)]
  rcases scope with _ | ⟨nm, b⟩
  · rfl
  · cases b <;> rfl

/-! ## C3: the URL of the inserted version reference -/

/-- C3 counterexample: on the spec's own scenario, `release("1.2.0")`
inserts `[1.2.0]` pointing at `.../compare/v1.1.0...v1.2.0` — the
Unreleased compare URL with `HEAD` substituted — and no reference with the
claimed URL `https://github.com/o/r/releases/tag/v1.2.0` exists anywhere in
the result. -/
theorem c3_counterexample :
    (parseDoc dRel).map
      (fun r => (release ⟨1, 2, 0, none⟩ none ("2026-01-01".data) r).map
        (fun r2 =>
          ((findNode (fun n => n.data = some (.Reference ("1.2.0".data)
              ("https://github.com/o/r/releases/tag/v1.2.0".data))) r2).isSome,
           (findNode (fun n => n.data = some (.Reference ("1.2.0".data)
              ("https://github.com/o/r/compare/v1.1.0...v1.2.0".data))) r2).isSome)))
      = .ok (.ok (false, true)) :=
  rfl

/-- The output of `release 1.2.0` on `dRel`: the Unreleased reference is
rewritten to `compare/v1.2.0...HEAD` and the new `[1.2.0]` reference, whose
URL is `compare/v1.1.0...v1.2.0`, sits directly above the prior newest
reference `[1.1.0]`. -/
def c3Expected : Node :=
  .mk none
    [.mk (some (.H1 ("Changelog".data)))
      [.mk (some (.Paragraph ("A.".data))) [],
       .mk (some (.Paragraph ("B.".data))) [],
       .mk (some (.H2 ("[Unreleased]".data)))
         [.mk (some .UnorderedList) [liNode ("Nothing yet!".data)]],
       .mk (some (.H2 ("[1.2.0] - 2026-01-01".data)))
         [.mk (some .UnorderedList) [liNode ("Nothing yet!".data)]],
       .mk (some (.H2 ("[1.1.0] - 2024-01-01".data)))
         [.mk (some (.H3 ("Added".data)))
           [.mk (some .UnorderedList) [liNode ("Old".data)]]]],
     .mk (some (.Reference ("unreleased".data)
       ("https://github.com/o/r/compare/v1.2.0...HEAD".data))) [],
     .mk (some (.Reference ("1.2.0".data)
       ("https://github.com/o/r/compare/v1.1.0...v1.2.0".data))) [],
     .mk (some (.Reference ("1.1.0".data)
       ("https://github.com/o/r/releases/tag/v1.1.0".data))) []]

/-- A hand-built tree whose only non-Unreleased reference sits nested under
the title rather than among the root's children: the insertion position
search finds nothing and the new reference is appended. -/
def nestedRefRoot : Node :=
  .mk none
    [.mk (some (.H1 ("T".data)))
      [.mk (some (.Paragraph ("A.".data))) [],
       .mk (some (.Paragraph ("B.".data))) [],
       .mk (some (.H2 ("[Unreleased]".data)))
         [.mk (some .UnorderedList) [liNode ("Nothing yet!".data)]],
       .mk (some (.Reference ("1.1.0".data)
         ("https://github.com/o/r/releases/tag/v1.1.0".data))) []],
     .mk (some (.Reference ("unreleased".data)
       ("https://github.com/o/r/compare/v1.1.0...HEAD".data))) []]

/-- The release output on `nestedRefRoot`: the new reference is appended at
the end of the root's children. -/
def c3AppendExpected : Node :=
  .mk none
    [.mk (some (.H1 ("T".data)))
      [.mk (some (.Paragraph ("A.".data))) [],
       .mk (some (.Paragraph ("B.".data))) [],
       .mk (some (.H2 ("[Unreleased]".data)))
         [.mk (some .UnorderedList) [liNode ("Nothing yet!".data)]],
       .mk (some (.H2 ("[1.2.0] - 2026-01-01".data)))
         [.mk (some .UnorderedList) [liNode ("Nothing yet!".data)]],
       .mk (some (.Reference ("1.1.0".data)
         ("https://github.com/o/r/releases/tag/v1.1.0".data))) []],
     .mk (some (.Reference ("unreleased".data)
       ("https://github.com/o/r/compare/v1.2.0...HEAD".data))) [],
     .mk (some (.Reference ("1.2.0".data)
       ("https://github.com/o/r/compare/v1.1.0...v1.2.0".data))) []]

/-- C3 (amended): on the spec's scenario, `release("1.2.0")` rewrites the
Unreleased reference to `compare/v1.2.0...HEAD` and inserts
`[1.2.0]: https://github.com/o/r/compare/v1.1.0...v1.2.0` (the Unreleased
URL with `HEAD` replaced by `v1.2.0`, not a `releases/tag` URL) immediately
before the first non-Unreleased reference among the root's children;
when no such reference exists there, the new reference is appended. -/
theorem c3_release_reference_rewrite :
    release ⟨1, 2, 0, none⟩ none ("2026-01-01".data) (parsedOr dRel) = .ok c3Expected ∧
    release ⟨1, 2, 0, none⟩ none ("2026-01-01".data) nestedRefRoot = .ok c3AppendExpected :=
  ⟨rfl, rfl⟩

/-! ## Lemmas about the node query and mutation primitives -/

/-- Case-insensitive equality is reflexive. -/
theorem eqIC_self (s : Str) : eqIC s s = true := by
  simp [eqIC]

/-- Searching sibling lists distributes over append: the left part wins
when it contains a match. -/
theorem findNodeL_append (p : Node → Bool) (xs ys : List Node) :
    findNodeL p (xs ++ ys) =
      (match findNodeL p xs with
       | some r => some r
       | none => findNodeL p ys) := by
  induction xs with
  | nil => simp [findNodeL]
  | cons c cs ih =>
    simp only [List.cons_append, findNodeL]
    cases findNode p c with
    | some r => simp
    | none => simpa using ih

/-- A sibling list with no match in its left part is searched in its right
part. -/
theorem findNodeL_append_of_none (p : Node → Bool) {xs : List Node} (ys : List Node)
    (h : findNodeL p xs = none) :
    findNodeL p (xs ++ ys) = findNodeL p ys := by
  rw [findNodeL_append, h]

/-- A cons sibling list with no match in its head subtree. -/
theorem findNodeL_cons_of_none (p : Node → Bool) {c : Node} (cs : List Node)
    (h : findNode p c = none) :
    findNodeL p (c :: cs) = findNodeL p cs := by
  simp [findNodeL, h]

/-- A node satisfying the predicate is found immediately. -/
theorem findNode_of_self {p : Node → Bool} {n : Node} (h : p n = true) :
    findNode p n = some n := by
  cases n with
  | mk d cs => simp [findNode, h]

/-- If some member of the sibling list itself satisfies the predicate then
the search succeeds. -/
theorem findNodeL_isSome_of_mem (p : Node → Bool) {c : Node} {cs : List Node}
    (hmem : c ∈ cs) (hc : p c = true) :
    (findNodeL p cs).isSome = true := by
  induction cs with
  | nil => cases hmem
  | cons hd tl ih =>
    simp only [findNodeL]
    cases hhd : findNode p hd with
    | some r => simp
    | none =>
      rcases List.mem_cons.mp hmem with heq | htl
      · subst heq
        rw [findNode_of_self hc] at hhd
        cases hhd
      · simpa using ih htl

/-- Mutation skips a prefix of siblings whose subtrees contain no match. -/
theorem modifyFirstL_append_of_none (p : Node → Bool) (f : Node → Node)
    {xs : List Node} (ys : List Node) (h : findNodeL p xs = none) :
    modifyFirstL p f (xs ++ ys) = xs ++ modifyFirstL p f ys := by
  induction xs with
  | nil => simp
  | cons c cs ih =>
    simp only [findNodeL] at h
    cases hc : findNode p c with
    | some r => rw [hc] at h; cases h
    | none =>
      rw [hc] at h
      simp only [List.cons_append, modifyFirstL, hc]
      simp [ih h]

/-! ## C4: repeated insertion accumulates items -/

/-- The document shape the insertion claims quantify over: a root holding a
level-1 title whose children are an intro region, the Unreleased node `u`,
and the later sections, followed by the trailing references. -/
def mkRootC4 (title : Str) (intro : List Node) (u : Node) (rest refs : List Node) : Node :=
  .mk none (.mk (some (.H1 title)) (intro ++ u :: rest) :: refs)

/-- Search on a non-matching constructor-form node descends to its
children. -/
theorem findNode_of_false {p : Node → Bool} {d : Option MarkdownToken} {cs : List Node}
    (h : p (.mk d cs) = false) : findNode p (.mk d cs) = findNodeL p cs := by
  simp [findNode, h]

/-- Mutation on a non-matching constructor-form node descends to its
children. -/
theorem modifyFirst_of_false {p : Node → Bool} {f : Node → Node} {d : Option MarkdownToken}
    {cs : List Node} (h : p (.mk d cs) = false) :
    modifyFirst p f (.mk d cs) = .mk d (modifyFirstL p f cs) := by
  simp [modifyFirst, h]

/-- Mutation applies `f` to a matching node. -/
theorem modifyFirst_of_true {p : Node → Bool} {f : Node → Node} {u : Node}
    (h : p u = true) : modifyFirst p f u = f u := by
  cases u with
  | mk d cs => simp [modifyFirst, h]

/-- Mutation enters the first sibling whose subtree holds a match. -/
theorem modifyFirstL_cons_hit {p : Node → Bool} {f : Node → Node} {c : Node}
    (cs : List Node) {r : Node} (h : findNode p c = some r) :
    modifyFirstL p f (c :: cs) = modifyFirst p f c :: cs := by
  simp [modifyFirstL, h]

/-- Search finds the head sibling's result first. -/
theorem findNodeL_cons_hit {p : Node → Bool} {c : Node} (cs : List Node) {r : Node}
    (h : findNode p c = some r) : findNodeL p (c :: cs) = some r := by
  simp [findNodeL, h]

/-- On a shaped document whose intro contains no Unreleased level-2 node,
`add_list_item_to_section_scope` applies exactly `addInsert` to the
Unreleased node and leaves everything else unchanged. -/
theorem add_on_shape (secName item title : Str) (intro rest refs : List Node)
    (u : Node) (hu : isH2Named ("[Unreleased]".data) u = true)
    (hIntro : findNodeL (isH2Named ("[Unreleased]".data)) intro = none) :
    add_list_item_to_section_scope secName item none (mkRootC4 title intro u rest refs)
      = .ok (mkRootC4 title intro (addInsert secName item u) rest refs) := by
  have hfu : findNode (isH2Named ("[Unreleased]".data)) u = some u := findNode_of_self hu
  have hfc0 : findNode (isH2Named ("[Unreleased]".data))
      (.mk (some (.H1 title)) (intro ++ u :: rest)) = some u := by
    rw [findNode_of_false rfl, findNodeL_append_of_none _ _ hIntro, findNodeL_cons_hit _ hfu]
  have hfound : findNode (isH2Named ("[Unreleased]".data)) (mkRootC4 title intro u rest refs)
      = some u := by
    rw [mkRootC4, findNode_of_false rfl, findNodeL_cons_hit _ hfc0]
  have hmod : modifyFirst (isH2Named ("[Unreleased]".data)) (addInsert secName item)
      (mkRootC4 title intro u rest refs)
      = mkRootC4 title intro (addInsert secName item u) rest refs := by
    rw [mkRootC4, mkRootC4, modifyFirst_of_false rfl, modifyFirstL_cons_hit _ hfc0,
      modifyFirst_of_false rfl, modifyFirstL_append_of_none _ _ _ hIntro,
      modifyFirstL_cons_hit _ hfu, modifyFirst_of_true hu]
  rw [add_list_item_to_section_scope]
  simp only [unreleased_heading]
  simp only [hfound, hmod]

/-- Applying the insertion transform to a placeholder-only Unreleased node
removes the placeholder list and creates the section with the single new
item. -/
theorem addInsert_placeholder (secName item : Str) :
    addInsert secName item (.mk (some (.H2 ("[Unreleased]".data)))
      [.mk (some .UnorderedList) [liNode ("Nothing yet!".data)]])
    = .mk (some (.H2 ("[Unreleased]".data)))
        [.mk (some (.H3 secName)) [.mk (some .UnorderedList) [liNode item]]] := rfl

/-- Applying the insertion transform to an Unreleased node already holding
the section appends the new item to the section's list. -/
theorem addInsert_filled (secName item : Str) (lis : List Node) :
    addInsert secName item (.mk (some (.H2 ("[Unreleased]".data)))
      [.mk (some (.H3 secName)) [.mk (some .UnorderedList) lis]])
    = .mk (some (.H2 ("[Unreleased]".data)))
        [.mk (some (.H3 secName)) [.mk (some .UnorderedList) (lis ++ [liNode item])]] := by
  have h3 : isH3Named secName (.mk (some (.H3 secName)) [.mk (some .UnorderedList) lis]) = true := by
    simp [isH3Named, Node.data, eqIC_self]
  have hul : isULNode (.mk (some .UnorderedList) lis) = true := rfl
  have hn3 : isULNode (.mk (some (.H3 secName)) [.mk (some .UnorderedList) lis]) = false := rfl
  have hp2 : isH3Named secName (.mk (some (.H2 ("[Unreleased]".data)))
      [.mk (some (.H3 secName)) [.mk (some .UnorderedList) lis]]) = false := rfl
  have hful := findNode_of_self hul
  have hfh3 := findNode_of_self h3
  have hfinner : findNode isULNode (.mk (some (.H3 secName)) [.mk (some .UnorderedList) lis])
      = some (.mk (some .UnorderedList) lis) := by
    rw [findNode_of_false hn3, findNodeL_cons_hit _ hful]
  have hfu1 : findNode (isH3Named secName) (.mk (some (.H2 ("[Unreleased]".data)))
      [.mk (some (.H3 secName)) [.mk (some .UnorderedList) lis]])
      = some (.mk (some (.H3 secName)) [.mk (some .UnorderedList) lis]) := by
    rw [findNode_of_false hp2, findNodeL_cons_hit _ hfh3]
  simp only [addInsert, Node.data, Node.children, List.eraseP_cons, hn3, cond_false,
    List.eraseP_nil, hfu1]
  rw [modifyFirst_of_false hp2, modifyFirstL_cons_hit _ hfh3, modifyFirst_of_true h3]
  simp only [hfinner]
  rw [modifyFirst_of_false hn3, modifyFirstL_cons_hit _ hful, modifyFirst_of_true hul]

/-- N successive `add_item` calls with the same section name
(`add_list_item_to_section_scope` with the scope actually passed along,
`None`, as the public entry point does). -/
def addItems (section_name : Str) (items : List Str) (root : Node) : Except RelErr Node :=
  match items with
  | [] => .ok root
  | x :: rest => (add_list_item_to_section_scope section_name x none root).bind
      (addItems section_name rest)

/-- Once the Unreleased section holds the single section with its list,
further insertions append to that list in call order. -/
theorem addItems_filled (secName title : Str) (intro rest refs : List Node)
    (hIntro : findNodeL (isH2Named ("[Unreleased]".data)) intro = none) :
    ∀ (ys : List Str) (lis : List Node),
      addItems secName ys (mkRootC4 title intro
        (.mk (some (.H2 ("[Unreleased]".data)))
          [.mk (some (.H3 secName)) [.mk (some .UnorderedList) lis]]) rest refs)
      = .ok (mkRootC4 title intro
          (.mk (some (.H2 ("[Unreleased]".data)))
            [.mk (some (.H3 secName)) [.mk (some .UnorderedList) (lis ++ ys.map liNode)]])
          rest refs) := by
  intro ys
  induction ys with
  | nil =>
    intro lis
    simp [addItems]
  | cons y ys ih =>
    intro lis
    have hu : isH2Named ("[Unreleased]".data) (.mk (some (.H2 ("[Unreleased]".data)))
        [.mk (some (.H3 secName)) [.mk (some .UnorderedList) lis]]) = true := by
      simp [isH2Named, Node.data, eqIC_self]
    rw [addItems, add_on_shape secName y title intro rest refs _ hu hIntro, addInsert_filled]
    simp only [Except.bind]
    rw [ih (lis ++ [liNode y])]
    simp

/-- C4: for every N at least 1, starting from a document whose Unreleased
section holds only the placeholder list, N `add_item` calls with the same
section name yield exactly one list group under that section's level-3
heading holding exactly the N inserted items in call order — the
placeholder is removed by the first call and never reappears. -/
theorem c4_add_items_accumulate (title secName x : Str) (xs : List Str)
    (intro rest refs : List Node)
    (hIntro : findNodeL (isH2Named ("[Unreleased]".data)) intro = none) :
    addItems secName (x :: xs)
      (mkRootC4 title intro (.mk (some (.H2 ("[Unreleased]".data)))
        [.mk (some .UnorderedList) [liNode ("Nothing yet!".data)]]) rest refs)
      = .ok (mkRootC4 title intro (.mk (some (.H2 ("[Unreleased]".data)))
          [.mk (some (.H3 secName)) [.mk (some .UnorderedList) ((x :: xs).map liNode)]])
          rest refs) := by
  have hu : isH2Named ("[Unreleased]".data) (.mk (some (.H2 ("[Unreleased]".data)))
      [.mk (some .UnorderedList) [liNode ("Nothing yet!".data)]]) = true := by
    simp [isH2Named, Node.data, eqIC_self]
  rw [addItems, add_on_shape secName x title intro rest refs _ hu hIntro,
    addInsert_placeholder]
  simp only [Except.bind]
  rw [addItems_filled secName title intro rest refs hIntro xs [liNode x]]
  simp

/-- C4 witness: three concrete items against a concrete document with one
intro paragraph accumulate in call order, by `c4_add_items_accumulate`. -/
theorem c4_add_items_accumulate_witness :
    addItems ("Added".data) ["One".data, "Two".data, "Three".data]
      (mkRootC4 ("Changelog".data) [Node.fromToken (.Paragraph ("About.".data))]
        (.mk (some (.H2 ("[Unreleased]".data)))
          [.mk (some .UnorderedList) [liNode ("Nothing yet!".data)]]) [] [])
      = .ok (mkRootC4 ("Changelog".data) [Node.fromToken (.Paragraph ("About.".data))]
          (.mk (some (.H2 ("[Unreleased]".data)))
            [.mk (some (.H3 ("Added".data)))
              [.mk (some .UnorderedList)
                [liNode ("One".data), liNode ("Two".data), liNode ("Three".data)]]]) [] []) :=
  c4_add_items_accumulate ("Changelog".data) ("Added".data) ("One".data)
    ["Two".data, "Three".data] [Node.fromToken (.Paragraph ("About.".data))] [] [] (by rfl)

/-! ## C6: the next-or-latest selector -/

/-- C6: with the selector absent, the resolver returns the Unreleased node
for the scope when it holds at least one level-3 child, and otherwise the
first non-Unreleased level-2 node (the first actual dated release); either
way, the returned node is a copy whose heading payload is cleared. The
shaped document places the Unreleased node for the scope first, followed by
the release sections; the intro and the Unreleased body contain no other
matching level-2 node. -/
theorem c6_resolver_next_or_latest (title : Str) (intro : List Node) (scope : Option Pkg)
    (ucs : List Node) (r1name : Str) (r1cs rest refs : List Node)
    (hIntro : findNodeL (sectionPred none scope) intro = none)
    (hUcs : findNodeL (sectionPred none scope) ucs = none)
    (hr1 : eqIC r1name (unreleased_heading scope) = false) :
    ((∃ c ∈ ucs, isH3Node c = true) →
      get_contents_of_section_scope none scope
        (mkRootC4 title intro (.mk (some (.H2 (unreleased_heading scope))) ucs)
          (.mk (some (.H2 r1name)) r1cs :: rest) refs)
        = some (.mk none ucs)) ∧
    (findNode isH3Node (.mk (some (.H2 (unreleased_heading scope))) ucs) = none →
      get_contents_of_section_scope none scope
        (mkRootC4 title intro (.mk (some (.H2 (unreleased_heading scope))) ucs)
          (.mk (some (.H2 r1name)) r1cs :: rest) refs)
        = some (.mk none r1cs)) := by
  constructor
  · intro hex
    obtain ⟨c, hmem, hc⟩ := hex
    have hpu : sectionPred none scope (.mk (some (.H2 (unreleased_heading scope))) ucs) = true := by
      have hsome : (findNode isH3Node (.mk (some (.H2 (unreleased_heading scope))) ucs)).isSome
          = true := by
        rw [findNode_of_false rfl]
        exact findNodeL_isSome_of_mem _ hmem hc
      simp [sectionPred, Node.data, eqIC_self, hsome]
    have hfound : findNode (sectionPred none scope)
        (mkRootC4 title intro (.mk (some (.H2 (unreleased_heading scope))) ucs)
          (.mk (some (.H2 r1name)) r1cs :: rest) refs)
        = some (.mk (some (.H2 (unreleased_heading scope))) ucs) := by
      rw [mkRootC4, findNode_of_false rfl,
        findNodeL_cons_hit _ (show findNode (sectionPred none scope)
          (.mk (some (.H1 title)) (intro ++
            (.mk (some (.H2 (unreleased_heading scope))) ucs) ::
              (.mk (some (.H2 r1name)) r1cs :: rest))) = some _ from ?_)]
      rw [findNode_of_false rfl, findNodeL_append_of_none _ _ hIntro,
        findNodeL_cons_hit _ (findNode_of_self hpu)]
    rw [get_contents_of_section_scope, hfound]
    rfl
  · intro hnone
    have hpu : sectionPred none scope (.mk (some (.H2 (unreleased_heading scope))) ucs) = false := by
      simp [sectionPred, Node.data, eqIC_self, hnone]
    have hfu : findNode (sectionPred none scope)
        (.mk (some (.H2 (unreleased_heading scope))) ucs) = none := by
      rw [findNode_of_false hpu]
      exact hUcs
    have hpr1 : sectionPred none scope (.mk (some (.H2 r1name)) r1cs) = true := by
      simp [sectionPred, Node.data, hr1]
    have hfound : findNode (sectionPred none scope)
        (mkRootC4 title intro (.mk (some (.H2 (unreleased_heading scope))) ucs)
          (.mk (some (.H2 r1name)) r1cs :: rest) refs)
        = some (.mk (some (.H2 r1name)) r1cs) := by
      rw [mkRootC4, findNode_of_false rfl,
        findNodeL_cons_hit _ (show findNode (sectionPred none scope)
          (.mk (some (.H1 title)) (intro ++
            (.mk (some (.H2 (unreleased_heading scope))) ucs) ::
              (.mk (some (.H2 r1name)) r1cs :: rest))) = some _ from ?_)]
      rw [findNode_of_false rfl, findNodeL_append_of_none _ _ hIntro,
        findNodeL_cons_of_none _ _ hfu, findNodeL_cons_hit _ (findNode_of_self hpr1)]
    rw [get_contents_of_section_scope, hfound]
    rfl

/-- C6 witness: concrete instances of both resolver branches via
`c6_resolver_next_or_latest`: an Unreleased section with an `Added`
level-3 child resolves to its own body; a placeholder-only Unreleased
section resolves to the first dated release's body. -/
theorem c6_resolver_next_or_latest_witness :
    (get_contents_of_section_scope none none
      (mkRootC4 ("T".data) [Node.fromToken (.Paragraph ("A.".data))]
        (.mk (some (.H2 (unreleased_heading none)))
          [.mk (some (.H3 ("Added".data))) [.mk (some .UnorderedList) [liNode ("X".data)]]])
        (.mk (some (.H2 ("[1.0.0] - 2024-01-01".data)))
          [.mk (some (.H3 ("Fixed".data))) [.mk (some .UnorderedList) [liNode ("Y".data)]]] :: [])
        [])
      = some (.mk none
          [.mk (some (.H3 ("Added".data))) [.mk (some .UnorderedList) [liNode ("X".data)]]])) ∧
    (get_contents_of_section_scope none none
      (mkRootC4 ("T".data) [Node.fromToken (.Paragraph ("A.".data))]
        (.mk (some (.H2 (unreleased_heading none)))
          [.mk (some .UnorderedList) [liNode ("Nothing yet!".data)]])
        (.mk (some (.H2 ("[1.0.0] - 2024-01-01".data)))
          [.mk (some (.H3 ("Fixed".data))) [.mk (some .UnorderedList) [liNode ("Y".data)]]] :: [])
        [])
      = some (.mk none
          [.mk (some (.H3 ("Fixed".data))) [.mk (some .UnorderedList) [liNode ("Y".data)]]])) :=
  ⟨(c6_resolver_next_or_latest ("T".data) [Node.fromToken (.Paragraph ("A.".data))] none
      [.mk (some (.H3 ("Added".data))) [.mk (some .UnorderedList) [liNode ("X".data)]]]
      ("[1.0.0] - 2024-01-01".data)
      [.mk (some (.H3 ("Fixed".data))) [.mk (some .UnorderedList) [liNode ("Y".data)]]] [] []
      rfl rfl (by decide)).1
    ⟨.mk (some (.H3 ("Added".data))) [.mk (some .UnorderedList) [liNode ("X".data)]],
      by simp, rfl⟩,
   (c6_resolver_next_or_latest ("T".data) [Node.fromToken (.Paragraph ("A.".data))] none
      [.mk (some .UnorderedList) [liNode ("Nothing yet!".data)]]
      ("[1.0.0] - 2024-01-01".data)
      [.mk (some (.H3 ("Fixed".data))) [.mk (some .UnorderedList) [liNode ("Y".data)]]] [] []
      rfl rfl (by decide)).2 rfl⟩

/-! ## C10: lemmas for the release error condition -/

/-- Search fails on a constructor-form node iff it fails at the node and in
its children. -/
theorem findNode_none_iff {p : Node → Bool} {d : Option MarkdownToken} {cs : List Node} :
    findNode p (.mk d cs) = none ↔ (p (.mk d cs) = false ∧ findNodeL p cs = none) := by
  by_cases h : p (.mk d cs) = true
  · simp [findNode, h]
  · simp only [Bool.not_eq_true] at h
    simp [findNode, h]

/-- Search fails on a cons sibling list iff it fails in the head and tail. -/
theorem findNodeL_none_cons_iff {p : Node → Bool} {c : Node} {cs : List Node} :
    findNodeL p (c :: cs) = none ↔ (findNode p c = none ∧ findNodeL p cs = none) := by
  cases hfc : findNode p c <;> simp [findNodeL, hfc]

/-- Search fails on an append iff it fails on both parts. -/
theorem findNodeL_none_append_iff {p : Node → Bool} {xs ys : List Node} :
    findNodeL p (xs ++ ys) = none ↔ (findNodeL p xs = none ∧ findNodeL p ys = none) := by
  rw [findNodeL_append]
  cases h : findNodeL p xs <;> simp

/-- Search fails on an insertion iff it fails on the inserted subtree and
on the original list. -/
theorem findNodeL_none_insertAt_iff {p : Node → Bool} {x : Node} {l : List Node} (n : Nat) :
    findNodeL p (insertAt n x l) = none ↔ (findNode p x = none ∧ findNodeL p l = none) := by
  rw [insertAt, findNodeL_none_append_iff, findNodeL_none_cons_iff]
  conv_rhs => rw [show l = l.take n ++ l.drop n from (List.take_append_drop n l).symm]
  rw [findNodeL_none_append_iff]
  tauto

mutual
/-- The node a search returns satisfies the predicate. -/
theorem findNode_sat {p : Node → Bool} {r : Node} :
    ∀ {n : Node}, findNode p n = some r → p r = true
  | .mk d cs, h => by
    by_cases hp : p (.mk d cs) = true
    · rw [findNode, if_pos hp] at h
      cases h
      exact hp
    · simp only [Bool.not_eq_true] at hp
      rw [findNode] at h
      simp only [hp, Bool.false_eq_true, if_false] at h
      exact findNodeL_sat h
/-- The node a sibling-list search returns satisfies the predicate. -/
theorem findNodeL_sat {p : Node → Bool} {r : Node} :
    ∀ {cs : List Node}, findNodeL p cs = some r → p r = true
  | [], h => by cases h
  | c :: cs, h => by
    rw [findNodeL] at h
    cases hfc : findNode p c with
    | some r2 =>
      rw [hfc] at h
      cases h
      exact findNode_sat hfc
    | none =>
      rw [hfc] at h
      exact findNodeL_sat h
end

/-- Mutation never changes the length of a sibling list. -/
theorem modifyFirstL_length (p : Node → Bool) (f : Node → Node) :
    ∀ cs : List Node, (modifyFirstL p f cs).length = cs.length
  | [] => rfl
  | c :: cs => by
    rw [modifyFirstL]
    by_cases h : (findNode p c).isSome = true
    · simp [h]
    · simp only [Bool.not_eq_true] at h
      simp [h, modifyFirstL_length p f cs]

mutual
/-- For a predicate that only inspects payloads, and a mutation `f` that
neither creates nor destroys matching nodes, mutating through the first
`p`-match preserves the absence of `q`-matches, in both directions. -/
theorem modifyFirst_none_iff (p q : Node → Bool) (f : Node → Node)
    (hq : ∀ (d : Option MarkdownToken) (cs1 cs2 : List Node), q (.mk d cs1) = q (.mk d cs2))
    (hf : ∀ n : Node, (findNode q (f n) = none) ↔ (findNode q n = none)) :
    ∀ n : Node, (findNode q (modifyFirst p f n) = none) ↔ (findNode q n = none)
  | .mk d cs => by
    by_cases hp : p (.mk d cs) = true
    · rw [modifyFirst_of_true hp]
      exact hf _
    · rw [modifyFirst_of_false (by simpa using hp)]
      rw [findNode_none_iff, findNode_none_iff,
        hq d (modifyFirstL p f cs) cs]
      have := modifyFirstL_none_iff p q f hq hf cs
      tauto
/-- Sibling-list version of `modifyFirst_none_iff`. -/
theorem modifyFirstL_none_iff (p q : Node → Bool) (f : Node → Node)
    (hq : ∀ (d : Option MarkdownToken) (cs1 cs2 : List Node), q (.mk d cs1) = q (.mk d cs2))
    (hf : ∀ n : Node, (findNode q (f n) = none) ↔ (findNode q n = none)) :
    ∀ cs : List Node, (findNodeL q (modifyFirstL p f cs) = none) ↔ (findNodeL q cs = none)
  | [] => Iff.rfl
  | c :: cs => by
    rw [modifyFirstL]
    by_cases h : (findNode p c).isSome = true
    · rw [if_pos h, findNodeL_none_cons_iff, findNodeL_none_cons_iff]
      have := modifyFirst_none_iff p q f hq hf c
      tauto
    · rw [if_neg (by simpa using h), findNodeL_none_cons_iff, findNodeL_none_cons_iff]
      have := modifyFirstL_none_iff p q f hq hf cs
      tauto
end

/-- Renaming a heading neither creates nor destroys latest-version
reference nodes. -/
theorem rename_latestRef_none_iff (text : Str) :
    ∀ n : Node, (findNode isLatestRef (rename_heading text n) = none)
      ↔ (findNode isLatestRef n = none)
  | .mk d cs => by
    cases d with
    | none => exact Iff.rfl
    | some t =>
      cases t with
      | H1 s =>
        simp only [rename_heading]
        rw [findNode_none_iff, findNode_none_iff]
        simp [isLatestRef, Node.data]
      | H2 s =>
        simp only [rename_heading]
        rw [findNode_none_iff, findNode_none_iff]
        simp [isLatestRef, Node.data]
      | H3 s =>
        simp only [rename_heading]
        rw [findNode_none_iff, findNode_none_iff]
        simp [isLatestRef, Node.data]
      | Paragraph s => exact Iff.rfl
      | UnorderedList => exact Iff.rfl
      | ListItem s i => exact Iff.rfl
      | Reference nm link => exact Iff.rfl
      | BlankLine => exact Iff.rfl

/-- `find_latest_version` yields nothing exactly when no latest-version
reference node exists. -/
theorem find_latest_version_none_iff (root : Node) :
    find_latest_version root = none ↔ findNode isLatestRef root = none := by
  rw [find_latest_version]
  cases h : findNode isLatestRef root with
  | none => simp
  | some n =>
    have hsat := findNode_sat h
    rcases n with ⟨d, cs⟩
    cases d with
    | none => simp [isLatestRef, Node.data] at hsat
    | some t =>
      cases t with
      | Reference nm link => simp [Node.data]
      | H1 s => simp [isLatestRef, Node.data] at hsat
      | H2 s => simp [isLatestRef, Node.data] at hsat
      | H3 s => simp [isLatestRef, Node.data] at hsat
      | Paragraph s => simp [isLatestRef, Node.data] at hsat
      | UnorderedList => simp [isLatestRef, Node.data] at hsat
      | ListItem s i => simp [isLatestRef, Node.data] at hsat
      | BlankLine => simp [isLatestRef, Node.data] at hsat

/-- Renaming through the first match keeps the first child's child count. -/
theorem modifyFirst_rename_children_length (p : Node → Bool) (text : Str) (c : Node) :
    (modifyFirst p (rename_heading text) c).children.length = c.children.length := by
  rcases c with ⟨d, cs⟩
  by_cases hp : p (.mk d cs) = true
  · rw [modifyFirst_of_true hp]
    cases d with
    | none => rfl
    | some t => cases t <;> rfl
  · rw [modifyFirst_of_false (by simpa using hp)]
    simp [Node.children, modifyFirstL_length]

/-- A latest-version reference match depends only on the payload. -/
theorem isLatestRef_mk_none (cs : List Node) : isLatestRef (.mk none cs) = false := rfl

/-- A latest-version reference match is unchanged by replacing children. -/
theorem isLatestRef_children_irrel (n : Node) (X : List Node) :
    isLatestRef (.mk n.data X) = isLatestRef n := by
  rcases n with ⟨d, cs⟩
  rfl

/-- `findNode_none_iff` for an abstract node. -/
theorem findNode_none_iff2 (p : Node → Bool) (n : Node) :
    findNode p n = none ↔ (p n = false ∧ findNodeL p n.children = none) := by
  rcases n with ⟨d, cs⟩
  exact findNode_none_iff

/-- The reference-insertion step always succeeds. -/
theorem releaseInsertRef_ne_error (v : SemVer) (scope : Option Pkg) (r2 : Node)
    (oldv nm link : Str) (e : RelErr) :
    releaseInsertRef v scope r2 oldv nm link ≠ .error e := by
  simp only [releaseInsertRef]
  split <;> simp

/-- `releaseFinish` errors exactly when no previous latest version exists. -/
theorem releaseFinish_error_iff (v : SemVer) (scope : Option Pkg) (r2 : Node) :
    (∃ e, releaseFinish v scope r2 = .error e) ↔ find_latest_version r2 = none := by
  constructor
  · rintro ⟨e, he⟩
    rw [releaseFinish.eq_def] at he
    split at he
    · assumption
    · exfalso
      split at he
      · exact Except.noConfusion he
      · split at he
        · exact releaseInsertRef_ne_error _ _ _ _ _ _ _ he
        · exact Except.noConfusion he
  · intro h
    exact ⟨.missingVersion, by rw [releaseFinish.eq_def, h]⟩

/-- C10: with no Unreleased level-2 heading the release succeeds and
returns the tree unchanged; and release returns an error precisely when an
Unreleased heading exists but no reference definition other than the
unreleased one (name not starting with "unreleased") exists. The root is
payload-free (as every parsed tree is) and its first child, when present,
has at least two children, so the `Vec::insert(2, _)` panic cannot fire. -/
theorem c10_release_error_iff (root : Node) (v : SemVer) (scope : Option Pkg) (date : Str)
    (hroot : root.data = none)
    (hc0 : ∀ c0 ∈ root.children.head?, 2 ≤ c0.children.length) :
    (findNode (isH2Named (unreleased_heading none)) root = none →
        release v scope date root = .ok root) ∧
    ((∃ e, release v scope date root = .error e) ↔
      ((findNode (isH2Named (unreleased_heading none)) root).isSome = true ∧
        findNode isLatestRef root = none)) := by
  rcases root with ⟨rd, rcs⟩
  simp only [Node.data] at hroot
  subst hroot
  cases hfind : findNode (isH2Named (unreleased_heading none)) (.mk none rcs) with
  | none =>
    refine ⟨fun _ => ?_, ?_, ?_⟩
    · rw [release.eq_def]
      simp only [hfind]
    · rintro ⟨e, he⟩
      rw [release.eq_def] at he
      simp only [hfind] at he
      exact Except.noConfusion he
    · rintro ⟨hsome, -⟩
      simp at hsome
  | some u =>
    have hcsne : rcs ≠ [] := by
      intro h
      subst h
      have hnil : findNode (isH2Named (unreleased_heading none)) (.mk none ([] : List Node))
          = none := rfl
      rw [hnil] at hfind
      exact Option.noConfusion hfind
    obtain ⟨c0, cs, rfl⟩ : ∃ c0 cs, rcs = c0 :: cs := by
      cases rcs with
      | nil => exact absurd rfl hcsne
      | cons a l => exact ⟨a, l, rfl⟩
    have hlen : 2 ≤ c0.children.length := hc0 c0 (by simp [Node.children])
    have hmod : modifyFirst (isH2Named (unreleased_heading none))
        (rename_heading ('[' :: semverStr v ++ "] - ".data ++ date)) (.mk none (c0 :: cs))
        = .mk none (modifyFirstL (isH2Named (unreleased_heading none))
            (rename_heading ('[' :: semverStr v ++ "] - ".data ++ date)) (c0 :: cs)) :=
      modifyFirst_of_false rfl
    obtain ⟨⟨c0pd, c0pcs⟩, csp, heq⟩ : ∃ c0p csp,
        modifyFirstL (isH2Named (unreleased_heading none))
          (rename_heading ('[' :: semverStr v ++ "] - ".data ++ date)) (c0 :: cs)
        = c0p :: csp := by
      rw [modifyFirstL]
      by_cases h : (findNode (isH2Named (unreleased_heading none)) c0).isSome = true
      · rw [if_pos h]
        exact ⟨_, _, rfl⟩
      · rw [if_neg (by simpa using h)]
        exact ⟨_, _, rfl⟩
    have hlenp : 2 ≤ c0pcs.length := by
      have h2 : c0pcs.length = c0.children.length := by
        rw [modifyFirstL] at heq
        by_cases h : (findNode (isH2Named (unreleased_heading none)) c0).isSome = true
        · rw [if_pos h] at heq
          injection heq with h1 h2
          have h3 := modifyFirst_rename_children_length (isH2Named (unreleased_heading none))
            ('[' :: semverStr v ++ "] - ".data ++ date) c0
          rw [h1] at h3
          simpa [Node.children] using h3
        · rw [if_neg (by simpa using h)] at heq
          injection heq with h1 h2
          subst h1
          simp [Node.children]
      omega
    have htransL : (findNodeL isLatestRef
        (modifyFirstL (isH2Named (unreleased_heading none))
          (rename_heading ('[' :: semverStr v ++ "] - ".data ++ date)) (c0 :: cs)) = none)
        ↔ (findNodeL isLatestRef (c0 :: cs) = none) :=
      modifyFirstL_none_iff _ isLatestRef _ (fun d a b => rfl)
        (rename_latestRef_none_iff _) _
    have hnewU : findNode isLatestRef
        (.mk (some (.H2 (unreleased_heading none)))
          [.mk (some .UnorderedList) [liNode ("Nothing yet!".data)]]) = none := rfl
    have hrel : release v scope date (.mk none (c0 :: cs))
        = releaseFinish v scope (.mk none (.mk c0pd (insertAt 2
            (.mk (some (.H2 (unreleased_heading none)))
              [.mk (some .UnorderedList) [liNode ("Nothing yet!".data)]])
            c0pcs) :: csp)) := by
      rw [release.eq_def]
      simp only [hfind, hmod, Node.children, heq, Node.data]
      rw [if_neg (by omega)]
    have hlatest : (find_latest_version (.mk none (.mk c0pd (insertAt 2
            (.mk (some (.H2 (unreleased_heading none)))
              [.mk (some .UnorderedList) [liNode ("Nothing yet!".data)]])
            c0pcs) :: csp)) = none)
        ↔ findNode isLatestRef (.mk none (c0 :: cs)) = none := by
      rw [heq] at htransL
      simp only [findNodeL_none_cons_iff] at htransL
      rw [find_latest_version_none_iff, findNode_none_iff, findNodeL_none_cons_iff,
        findNode_none_iff, findNodeL_none_insertAt_iff,
        show isLatestRef (.mk c0pd (insertAt 2
            (.mk (some (.H2 (unreleased_heading none)))
              [.mk (some .UnorderedList) [liNode ("Nothing yet!".data)]])
            c0pcs)) = isLatestRef (.mk c0pd c0pcs) from rfl,
        hnewU]
      rw [findNode_none_iff, findNodeL_none_cons_iff]
      simp only [isLatestRef_mk_none, Node.children]
      have hni := findNode_none_iff2 isLatestRef (.mk c0pd c0pcs)
      simp only [Node.children] at hni
      tauto
    refine ⟨?_, ?_, ?_⟩
    · intro h
      exact Option.noConfusion h
    · rintro ⟨e, he⟩
      rw [hrel] at he
      have hfl := (releaseFinish_error_iff v scope _).mp ⟨e, he⟩
      exact ⟨rfl, hlatest.mp hfl⟩
    · rintro ⟨-, hl⟩
      obtain ⟨e, he⟩ := (releaseFinish_error_iff v scope _).mpr (hlatest.mpr hl)
      exact ⟨e, by rw [hrel]; exact he⟩

/-- C10 witness: on the concrete document `dC5`, which has an Unreleased
heading but no reference definitions at all, `release` fails, by
`c10_release_error_iff`. -/
theorem c10_release_error_iff_witness :
    ∃ e, release ⟨2, 0, 0, none⟩ none ("2026-02-02".data) (parsedOr dC5) = .error e :=
  ((c10_release_error_iff (parsedOr dC5) ⟨2, 0, 0, none⟩ none ("2026-02-02".data) rfl
      (by decide)).2).mpr ⟨rfl, rfl⟩

/-! ## C1: the round trip. A grammar of valid changelog documents -/

/-- Concatenation of the images of a list (used to assemble token and
group sequences). -/
def catMap (f : α → List β) : List α → List β
  | [] => []
  | x :: xs => f x ++ catMap f xs

/-- Join with a separator written after every element. -/
def joinAfter (sep : Str) : List Str → Str
  | [] => []
  | x :: xs => x ++ sep ++ joinAfter sep xs

/-- Contains no newline character. -/
def noNL (s : Str) : Bool := s.all (fun c => c ≠ '\n')

/-- A trailing reference definition (a `[label]: url` line). -/
structure RefDef where
  label : Str
  url : Str
deriving DecidableEq, Repr

/-- A level-3 category subsection: its heading text and its `-`-prefixed
list items (indent width and text). -/
structure Subsec where
  name : Str
  items : List (Nat × Str)
deriving DecidableEq, Repr

/-- A level-2 section: its heading text, an optional leading list group
(directly under the level-2 heading, as in a placeholder-only Unreleased
section) and its subsections. -/
structure DocSection where
  heading : Str
  lead : Option (List (Nat × Str))
  subs : List Subsec
deriving DecidableEq, Repr

/-- A valid changelog document in the persisted conventions of the spec:
one level-1 title, prose paragraphs, level-2 sections with level-3
category lists, and a flat trailing block of reference definitions. -/
structure Doc where
  title : Str
  prose : List Str
  sections : List DocSection
  refs : List RefDef
deriving DecidableEq, Repr

/-- The `- `-prefixed line of one list item, with its indent. -/
def itemLine (it : Nat × Str) : Str := List.replicate it.1 ' ' ++ "- ".data ++ it.2

/-- The blank-line-delimited group of one list. -/
def listGroupText (items : List (Nat × Str)) : Str := icatSep ['\n'] (items.map itemLine)

/-- The `[label]: url` line of one reference definition. -/
def refLine (r : RefDef) : Str := '[' :: r.label ++ "]: ".data ++ r.url

/-- The groups of one subsection: its `### ` heading and its list. -/
def subGroups (ss : Subsec) : List Str :=
  ["### ".data ++ ss.name, listGroupText ss.items]

/-- The groups of one section: its `## ` heading, the optional leading
list, and its subsections' groups. -/
def secGroups (s : DocSection) : List Str :=
  ("## ".data ++ s.heading) ::
    ((match s.lead with
      | none => []
      | some items => [listGroupText items]) ++ catMap subGroups s.subs)

/-- All blank-line-delimited groups of a document, in order. -/
def docGroups (d : Doc) : List Str :=
  ("# ".data ++ d.title) :: (d.prose ++ catMap secGroups d.sections ++
    (match d.refs with
     | [] => []
     | rs => [icatSep ['\n'] (rs.map refLine)]))

/-- The persisted text of a document: its groups joined by blank lines. -/
def docText (d : Doc) : Str := icatSep ("\n\n".data) (docGroups d)

/-- The token of one list item. -/
def itemTok (it : Nat × Str) : MarkdownToken := .ListItem it.2 it.1

/-- The token sequence of one subsection. -/
def subToks (ss : Subsec) : List MarkdownToken := .H3 ss.name :: ss.items.map itemTok

/-- The token sequence of one section. -/
def secToks (s : DocSection) : List MarkdownToken :=
  .H2 s.heading ::
    ((match s.lead with
      | none => []
      | some items => items.map itemTok) ++ catMap subToks s.subs)

/-- The expected token sequence of a document. -/
def docToks (d : Doc) : List MarkdownToken :=
  .H1 d.title :: (d.prose.map .Paragraph ++ catMap secToks d.sections ++
    d.refs.map (fun r => .Reference r.label r.url))

/-- The leaf node of one list item. -/
def liLeaf (it : Nat × Str) : Node := .mk (some (.ListItem it.2 it.1)) []

/-- The synthetic list-group node of a list. -/
def ulNodeOf (items : List (Nat × Str)) : Node :=
  .mk (some .UnorderedList) (items.map liLeaf)

/-- The subtree of one subsection. -/
def subNode (ss : Subsec) : Node := .mk (some (.H3 ss.name)) [ulNodeOf ss.items]

/-- The subtree of one section. -/
def secNode (s : DocSection) : Node :=
  .mk (some (.H2 s.heading))
    ((match s.lead with
      | none => []
      | some items => [ulNodeOf items]) ++ s.subs.map subNode)

/-- The expected tree of a document: the title owns the prose and the
sections, and the references trail at the root. -/
def docTree (d : Doc) : Node :=
  .mk none (.mk (some (.H1 d.title))
      (d.prose.map (fun p => .mk (some (.Paragraph p)) []) ++ d.sections.map secNode)
    :: d.refs.map (fun r => .mk (some (.Reference r.label r.url)) []))

/-- A safe prose paragraph: non-empty, no blank line inside, not ending in
a newline, and classified as an opaque paragraph (its first non-space
character is ASCII and none of `#`, `-`, `[`). -/
def paraSafe (p : Str) : Bool :=
  ¬ p.isEmpty && hasNN p = false && ¬ p.getLast? = some '\n' &&
    (match trimStr p with
     | [] => false
     | c :: _ => c.toNat < 128 && ¬ c = '#' && ¬ c = '-' && ¬ c = '[')

/-- A safe subsection: newline-free heading and a non-empty list of
newline-free items. -/
def subSafe (ss : Subsec) : Bool :=
  noNL ss.name && ¬ ss.items.isEmpty && ss.items.all (fun it => noNL it.2)

/-- A safe section: newline-free heading, a non-empty body (a leading list
or at least one subsection), safe lead items and safe subsections. -/
def secSafe (s : DocSection) : Bool :=
  noNL s.heading &&
    (match s.lead with
     | none => ¬ s.subs.isEmpty
     | some items => ¬ items.isEmpty && items.all (fun it => noNL it.2)) &&
    s.subs.all subSafe

/-- A safe reference definition: newline-free label and URL, no `": "`
inside the bracketed label or the URL. -/
def refSafe (r : RefDef) : Bool :=
  noNL r.label && noNL r.url && hasCS ('[' :: r.label ++ "]".data) = false &&
    hasCS r.url = false

/-- A well-formed document: newline-free title, safe prose, sections and
references, and a non-empty body whenever references are present (so that
the trailing reference block indeed trails something). -/
def wellFormedDoc (d : Doc) : Bool :=
  noNL d.title && d.prose.all paraSafe && d.sections.all secSafe &&
    d.refs.all refSafe &&
    (¬ d.prose.isEmpty || ¬ d.sections.isEmpty || d.refs.isEmpty)
/-! ### String lemmas for the round trip -/

/-- Unfolding of `hasNN` on a cons cell. -/
theorem hasNN_cons (c : Char) (r : Str) :
    hasNN (c :: r) = (decide (c = '\n' ∧ r.head? = some '\n') || hasNN r) := rfl

/-- The join of a non-empty list whose head is non-empty is non-empty. -/
theorem icatSep_ne_nil (sep l : Str) (ls : List Str) (h : l ≠ []) :
    icatSep sep (l :: ls) ≠ [] := by
  match ls with
  | [] => simpa [icatSep] using h
  | l' :: ls' =>
    show l ++ sep ++ icatSep sep (l' :: ls') ≠ []
    simp [h]

/-- Unfolding of the join on a list of at least two elements, reassociated
to expose the separator as a cons-prefix of the tail. -/
theorem icatSep_cons_cons (sep x y : Str) (ys : List Str) :
    icatSep sep (x :: y :: ys) = x ++ (sep ++ icatSep sep (y :: ys)) := by
  rw [show icatSep sep (x :: y :: ys) = x ++ sep ++ icatSep sep (y :: ys) from rfl]
  exact List.append_assoc _ _ _

/-- A string with no pair of consecutive newlines is one whole group. -/
theorem splitNN_single (g : Str) (h : hasNN g = false) : splitNN g = [g] := by
  match g with
  | [] => rfl
  | [c] => rfl
  | c :: d :: rest =>
    rw [hasNN_cons] at h
    simp only [Bool.or_eq_false_iff, decide_eq_false_iff_not, List.head?_cons] at h
    rw [splitNN]
    rw [if_neg (by simpa using h.1)]
    rw [splitNN_single (d :: rest) h.2]

/-- Splitting on the blank-line separator peels off a leading group that
holds no blank line and does not end in a newline. -/
theorem splitNN_sep (g t : Str) (h : hasNN g = false)
    (hl : ¬ g.getLast? = some '\n') :
    splitNN (g ++ '\n' :: '\n' :: t) = g :: splitNN t := by
  match g with
  | [] => simp [splitNN]
  | [c] =>
    have hc : ¬ c = '\n' := by simpa [List.getLast?] using hl
    show splitNN (c :: '\n' :: '\n' :: t) = [c] :: splitNN t
    rw [splitNN]
    rw [if_neg (by simp [hc])]
    rw [splitNN]
    rw [if_pos (by simp)]
  | c :: d :: g' =>
    rw [hasNN_cons] at h
    simp only [Bool.or_eq_false_iff, decide_eq_false_iff_not, List.head?_cons] at h
    have hl' : ¬ (d :: g').getLast? = some '\n' := by
      simpa [List.getLast?_cons_cons] using hl
    have ih := splitNN_sep (d :: g') t h.2 hl'
    show splitNN (c :: d :: (g' ++ '\n' :: '\n' :: t)) = (c :: d :: g') :: splitNN t
    rw [splitNN]
    rw [if_neg (by simpa using h.1)]
    have hres : d :: (g' ++ '\n' :: '\n' :: t) = (d :: g') ++ '\n' :: '\n' :: t := by simp
    rw [hres, ih]

/-- Splitting the blank-line join of well-behaved groups recovers the
groups. -/
theorem splitNN_icatSep (gs : List Str) (hne : gs ≠ [])
    (h : ∀ g ∈ gs, hasNN g = false ∧ ¬ g.getLast? = some '\n') :
    splitNN (icatSep ('\n' :: '\n' :: []) gs) = gs := by
  match gs with
  | [g] =>
    simp only [icatSep]
    exact splitNN_single g (h g (by simp)).1
  | g :: g' :: gs' =>
    have hg := h g (by simp)
    have ih := splitNN_icatSep (g' :: gs') (by simp)
      (fun x hx => h x (List.mem_cons_of_mem _ hx))
    rw [icatSep_cons_cons]
    simp only [List.cons_append, List.nil_append]
    rw [splitNN_sep g _ hg.1 hg.2, ih]

/-- A string avoiding the split character is one whole piece. -/
theorem splitOnChar_no (c : Char) (s : Str) (h : ∀ a ∈ s, ¬ a = c) :
    splitOnChar c s = [s] := by
  induction s with
  | nil => rfl
  | cons a r ih =>
    rw [splitOnChar]
    rw [if_neg (h a (by simp))]
    rw [ih (fun x hx => h x (List.mem_cons_of_mem _ hx))]

/-- Splitting on a character peels off a leading piece avoiding it. -/
theorem splitOnChar_append (c : Char) (l r : Str) (h : ∀ a ∈ l, ¬ a = c) :
    splitOnChar c (l ++ c :: r) = l :: splitOnChar c r := by
  induction l with
  | nil => simp [splitOnChar]
  | cons a l' ih =>
    show splitOnChar c (a :: (l' ++ c :: r)) = (a :: l') :: splitOnChar c r
    rw [splitOnChar]
    rw [if_neg (h a (by simp))]
    rw [ih (fun x hx => h x (List.mem_cons_of_mem _ hx))]

/-- The single-newline join of non-empty newline-free lines ends with a
character of the last line, hence not with a newline. -/
theorem icatSepNL_getLast (ls : List Str) (hne : ls ≠ [])
    (h : ∀ l ∈ ls, l ≠ [] ∧ ∀ a ∈ l, ¬ a = '\n') :
    ¬ (icatSep ['\n'] ls).getLast? = some '\n' := by
  match ls with
  | [l] =>
    simp only [icatSep]
    intro hc
    have hm : '\n' ∈ l := List.mem_of_mem_getLast? (by simp [hc])
    exact (h l (by simp)).2 '\n' hm rfl
  | l :: l' :: ls' =>
    have ih := icatSepNL_getLast (l' :: ls') (by simp)
      (fun x hx => h x (List.mem_cons_of_mem _ hx))
    rw [icatSep_cons_cons]
    simp only [List.cons_append, List.nil_append]
    rw [List.getLast?_append_cons]
    have hnn := icatSep_ne_nil ['\n'] l' ls' (h l' (by simp)).1
    match hx : icatSep ['\n'] (l' :: ls') with
    | [] => exact absurd hx hnn
    | p :: ps =>
      rw [← hx]
      have hstep : ('\n' :: icatSep ['\n'] (l' :: ls')).getLast? =
          (icatSep ['\n'] (l' :: ls')).getLast? := by
        rw [hx]
        show ('\n' :: p :: ps).getLast? = (p :: ps).getLast?
        simp [List.getLast?_cons_cons]
      rw [hstep]
      exact ih

/-- The single-newline join of non-empty newline-free lines splits back
into the lines. -/
theorem rustLines_icatSep (ls : List Str) (hne : ls ≠ [])
    (h : ∀ l ∈ ls, l ≠ [] ∧ ∀ a ∈ l, ¬ a = '\n') :
    rustLines (icatSep ['\n'] ls) = ls := by
  have hlast := icatSepNL_getLast ls hne h
  have hsplit : splitOnChar '\n' (icatSep ['\n'] ls) = ls := by
    clear hlast
    induction ls with
    | nil => exact absurd rfl hne
    | cons l ls' ih =>
      match ls' with
      | [] =>
        simp only [icatSep]
        exact splitOnChar_no '\n' l (h l (by simp)).2
      | l' :: ls'' =>
        rw [icatSep_cons_cons]
        simp only [List.cons_append, List.nil_append]
        rw [splitOnChar_append '\n' l _ (h l (by simp)).2]
        rw [ih (by simp) (fun x hx => h x (List.mem_cons_of_mem _ hx))]
  have hnonnil : icatSep ['\n'] ls ≠ [] := by
    match ls with
    | l :: ls' => exact icatSep_ne_nil ['\n'] l ls' (h l (by simp)).1
  rw [rustLines, if_neg hnonnil, if_neg hlast, hsplit]

/-- `dropWhile` distributes over an appended element that fails the
predicate. -/
theorem dropWhile_append_singleton (p : α → Bool) (xs : List α) (c : α)
    (hc : p c = false) : (xs ++ [c]).dropWhile p = xs.dropWhile p ++ [c] := by
  induction xs with
  | nil => simp [List.dropWhile, hc]
  | cons a xs' ih =>
    show ((a :: (xs' ++ [c])).dropWhile p) = _
    rw [List.dropWhile_cons, List.dropWhile_cons]
    by_cases hp : p a = true
    · rw [if_pos hp, if_pos hp, ih]
    · rw [if_neg hp, if_neg hp]
      simp

/-- Trimming a string whose first non-whitespace character is known keeps
that character in front. -/
theorem trimStr_shape (s x : Str) (c : Char)
    (h : s.dropWhile Char.isWhitespace = c :: x) (hc : c.isWhitespace = false) :
    trimStr s = c :: (x.reverse.dropWhile Char.isWhitespace).reverse := by
  rw [trimStr, h]
  rw [show (c :: x).reverse = x.reverse ++ [c] by simp]
  rw [dropWhile_append_singleton _ _ _ hc]
  simp

/-- Trimming a string that starts with a non-whitespace character keeps
that character in front. -/
theorem trimStr_cons (c : Char) (r : Str) (hc : c.isWhitespace = false) :
    trimStr (c :: r) = c :: (r.reverse.dropWhile Char.isWhitespace).reverse := by
  exact trimStr_shape _ _ _ (by rw [List.dropWhile_cons, if_neg (by simp [hc])]) hc

/-- A list is a prefix of itself extended by anything. -/
theorem isPrefixOf_append_self (l x : Str) : l.isPrefixOf (l ++ x) = true := by
  induction l with
  | nil => simp [List.isPrefixOf]
  | cons a l' ih => simp [List.isPrefixOf]

/-- Leading spaces pass `dropWhile isWhitespace` entirely when followed by a
non-whitespace character. -/
theorem dropWhile_replicate_space (n : Nat) (c : Char) (z : Str)
    (hc : c.isWhitespace = false) :
    (List.replicate n ' ' ++ c :: z).dropWhile Char.isWhitespace = c :: z := by
  induction n with
  | zero => simp [List.dropWhile_cons, hc]
  | succ n ih =>
    rw [List.replicate_succ]
    show ((' ' :: (List.replicate n ' ' ++ c :: z)).dropWhile Char.isWhitespace) = _
    rw [List.dropWhile_cons, if_pos (by decide), ih]

/-- Leading spaces are exactly what `takeWhile isWhitespace` collects when
followed by a non-whitespace character. -/
theorem takeWhile_replicate_space (n : Nat) (c : Char) (z : Str)
    (hc : c.isWhitespace = false) :
    (List.replicate n ' ' ++ c :: z).takeWhile Char.isWhitespace =
      List.replicate n ' ' := by
  induction n with
  | zero => simp [List.takeWhile_cons, hc]
  | succ n ih =>
    rw [List.replicate_succ]
    show ((' ' :: (List.replicate n ' ' ++ c :: z)).takeWhile Char.isWhitespace) = _
    rw [List.takeWhile_cons, if_pos (by decide), ih]

/-- `breakColonSpace` finds the separator right after a prefix that avoids
it. -/
theorem breakColonSpace_append (x y : Str) (h : hasCS x = false) :
    breakColonSpace (x ++ ':' :: ' ' :: y) = some (x, y) := by
  induction x with
  | nil =>
    show breakColonSpace (':' :: ' ' :: y) = some ([], y)
    rw [breakColonSpace]
    rw [if_pos (by simp)]
    rfl
  | cons c x' ih =>
    rw [show hasCS (c :: x') = (decide (c = ':' ∧ x'.head? = some ' ') || hasCS x')
        from rfl] at h
    simp only [Bool.or_eq_false_iff, decide_eq_false_iff_not] at h
    show breakColonSpace (c :: (x' ++ ':' :: ' ' :: y)) = some (c :: x', y)
    rw [breakColonSpace]
    rw [if_neg (by
      rintro ⟨rfl, hhd⟩
      match x', h with
      | [], h => simp at hhd
      | a :: x'', h =>
        rw [show (a :: x'' ++ ':' :: ' ' :: y).head? = some a from rfl] at hhd
        exact h.1 ⟨rfl, by simpa using hhd⟩)]
    rw [ih h.2]

/-- A `# `-prefixed line lexes to an `H1` token. -/
theorem lexLine_H1 (t : Str) : lexLine ("# ".data ++ t) = .ok (.H1 t) := by
  show lexLine ('#' :: ' ' :: t) = .ok (.H1 t)
  have hdrop : ('#' :: ' ' :: t).dropWhile Char.isWhitespace = '#' :: ' ' :: t := by
    rw [List.dropWhile_cons, if_neg (by decide)]
  simp only [lexLine, hdrop]
  rw [if_pos (show ("# ".data).isPrefixOf ('#' :: ' ' :: t) = true
    from isPrefixOf_append_self "# ".data t)]
  rfl

/-- A `## `-prefixed line lexes to an `H2` token. -/
theorem lexLine_H2 (t : Str) : lexLine ("## ".data ++ t) = .ok (.H2 t) := by
  show lexLine ('#' :: '#' :: ' ' :: t) = .ok (.H2 t)
  have hdrop : ('#' :: '#' :: ' ' :: t).dropWhile Char.isWhitespace =
      '#' :: '#' :: ' ' :: t := by
    rw [List.dropWhile_cons, if_neg (by decide)]
  simp only [lexLine, hdrop]
  rw [if_neg (show ¬ ("# ".data).isPrefixOf ('#' :: '#' :: ' ' :: t) = true by
    simp [List.isPrefixOf])]
  rw [if_pos (show ("## ".data).isPrefixOf ('#' :: '#' :: ' ' :: t) = true
    from isPrefixOf_append_self "## ".data t)]
  rfl

/-- A `### `-prefixed line lexes to an `H3` token. -/
theorem lexLine_H3 (t : Str) : lexLine ("### ".data ++ t) = .ok (.H3 t) := by
  show lexLine ('#' :: '#' :: '#' :: ' ' :: t) = .ok (.H3 t)
  have hdrop : ('#' :: '#' :: '#' :: ' ' :: t).dropWhile Char.isWhitespace =
      '#' :: '#' :: '#' :: ' ' :: t := by
    rw [List.dropWhile_cons, if_neg (by decide)]
  simp only [lexLine, hdrop]
  rw [if_neg (show ¬ ("# ".data).isPrefixOf ('#' :: '#' :: '#' :: ' ' :: t) = true by
    simp [List.isPrefixOf])]
  rw [if_neg (show ¬ ("## ".data).isPrefixOf ('#' :: '#' :: '#' :: ' ' :: t) = true by
    simp [List.isPrefixOf])]
  rw [if_pos (show ("### ".data).isPrefixOf ('#' :: '#' :: '#' :: ' ' :: t) = true
    from isPrefixOf_append_self "### ".data t)]
  rfl

/-- An indented `- `-prefixed line lexes to a `ListItem` token carrying the
indent width. -/
theorem lexLine_LI (i : Nat) (t : Str) :
    lexLine (List.replicate i ' ' ++ "- ".data ++ t) = .ok (.ListItem t i) := by
  have hshape : List.replicate i ' ' ++ "- ".data ++ t =
      List.replicate i ' ' ++ '-' :: ' ' :: t := by simp
  rw [hshape]
  have hdrop := dropWhile_replicate_space i '-' (' ' :: t) (by decide)
  have htake := takeWhile_replicate_space i '-' (' ' :: t) (by decide)
  simp only [lexLine, hdrop, htake, List.length_replicate]
  rw [if_neg (show ¬ ("# ".data).isPrefixOf ('-' :: ' ' :: t) = true by
    simp [List.isPrefixOf])]
  rw [if_neg (show ¬ ("## ".data).isPrefixOf ('-' :: ' ' :: t) = true by
    simp [List.isPrefixOf])]
  rw [if_neg (show ¬ ("### ".data).isPrefixOf ('-' :: ' ' :: t) = true by
    simp [List.isPrefixOf])]
  rw [if_pos (show ("- ".data).isPrefixOf ('-' :: ' ' :: t) = true
    from isPrefixOf_append_self "- ".data t)]
  rfl

/-- A `[label]: url` line with a clean label and URL lexes to a `Reference`
token. -/
theorem lexLine_Ref (label url : Str)
    (hlab : hasCS ('[' :: label ++ "]".data) = false)
    (hurl : hasCS url = false) :
    lexLine ('[' :: label ++ "]: ".data ++ url) = .ok (.Reference label url) := by
  have hshape : '[' :: label ++ "]: ".data ++ url =
      ('[' :: label ++ [']']) ++ ':' :: ' ' :: url := by simp
  rw [hshape]
  have hlab' : hasCS ('[' :: label ++ [']']) = false := hlab
  have hbreak := breakColonSpace_append ('[' :: label ++ [']']) url hlab'
  have hdrop : (('[' :: label ++ [']']) ++ ':' :: ' ' :: url).dropWhile
      Char.isWhitespace = ('[' :: label ++ [']']) ++ ':' :: ' ' :: url := by
    show (('[' :: (label ++ [']'] ++ ':' :: ' ' :: url)).dropWhile Char.isWhitespace) = _
    rw [List.dropWhile_cons, if_neg (by decide)]
    simp
  simp only [lexLine, hdrop]
  rw [if_neg (show ¬ ("# ".data).isPrefixOf
      (('[' :: label ++ [']']) ++ ':' :: ' ' :: url) = true by
    simp [List.isPrefixOf])]
  rw [if_neg (show ¬ ("## ".data).isPrefixOf
      (('[' :: label ++ [']']) ++ ':' :: ' ' :: url) = true by
    simp [List.isPrefixOf])]
  rw [if_neg (show ¬ ("### ".data).isPrefixOf
      (('[' :: label ++ [']']) ++ ':' :: ' ' :: url) = true by
    simp [List.isPrefixOf])]
  rw [if_neg (show ¬ ("- ".data).isPrefixOf
      (('[' :: label ++ [']']) ++ ':' :: ' ' :: url) = true by
    simp [List.isPrefixOf])]
  rw [if_pos (show (('[' :: label ++ [']']) ++ ':' :: ' ' :: url).head? = some '['
    by simp)]
  simp only [hbreak]
  simp only [breakColonSpace_eq_none hurl]
  rw [if_neg (by simp [List.length_append])]
  rw [show ('[' :: label ++ [']']).drop 1 = label ++ [']'] by simp]
  rw [List.dropLast_concat]

/-- Elementwise reading of `noNL`. -/
theorem noNL_forall (s : Str) (h : noNL s = true) : ∀ a ∈ s, ¬ a = '\n' := by
  intro a ha
  have := List.all_eq_true.mp h a ha
  simpa using this

/-- A newline-free string holds no blank line. -/
theorem hasNN_of_no_newline (s : Str) (h : ∀ a ∈ s, ¬ a = '\n') :
    hasNN s = false := by
  induction s with
  | nil => rfl
  | cons c r ih =>
    rw [hasNN_cons]
    simp only [Bool.or_eq_false_iff, decide_eq_false_iff_not]
    exact ⟨fun hc => h c (by simp) hc.1,
      ih (fun a ha => h a (List.mem_cons_of_mem _ ha))⟩

/-- A newline-free non-empty string does not end in a newline. -/
theorem noNL_getLast (s : Str) (h : ∀ a ∈ s, ¬ a = '\n') :
    ¬ s.getLast? = some '\n' := by
  intro hc
  exact h '\n' (List.mem_of_mem_getLast? (by simp [hc])) rfl

/-- Prepending a newline-free string and a single newline to a string that
neither starts with a newline nor holds a blank line keeps it blank-line
free. -/
theorem hasNN_append_cons (x R : Str) (hx : ∀ a ∈ x, ¬ a = '\n')
    (hR : ¬ R.head? = some '\n') (hRn : hasNN R = false) :
    hasNN (x ++ '\n' :: R) = false := by
  induction x with
  | nil =>
    simp only [List.nil_append]
    rw [hasNN_cons]
    simp only [Bool.or_eq_false_iff, decide_eq_false_iff_not]
    exact ⟨fun hc => hR hc.2, hRn⟩
  | cons a x' ih =>
    simp only [List.cons_append]
    rw [hasNN_cons]
    simp only [Bool.or_eq_false_iff, decide_eq_false_iff_not]
    exact ⟨fun hc => hx a (by simp) hc.1,
      ih (fun b hb => hx b (List.mem_cons_of_mem _ hb))⟩

/-- The single-newline join of non-empty newline-free lines holds no blank
line. -/
theorem hasNN_icatSepNL (ls : List Str)
    (h : ∀ l ∈ ls, l ≠ [] ∧ ∀ a ∈ l, ¬ a = '\n') :
    hasNN (icatSep ['\n'] ls) = false := by
  match ls with
  | [] => rfl
  | [l] =>
    simp only [icatSep]
    exact hasNN_of_no_newline l (h l (by simp)).2
  | l :: l' :: ls' =>
    rw [icatSep_cons_cons]
    simp only [List.cons_append, List.nil_append]
    have ihh := hasNN_icatSepNL (l' :: ls') (fun x hx => h x (List.mem_cons_of_mem _ hx))
    have hhd : ¬ (icatSep ['\n'] (l' :: ls')).head? = some '\n' := by
      have hl' : l' ≠ [] := (h l' (by simp)).1
      match hl : l', hl' with
      | a :: l'', _ =>
        match ls' with
        | [] =>
          show ¬ (a :: l'').head? = some '\n'
          simp only [List.head?_cons, Option.some.injEq]
          exact fun hc => (h (a :: l'') (by simp)).2 a (by simp) hc
        | y :: ys =>
          rw [icatSep_cons_cons]
          simp only [List.cons_append, List.head?_cons, Option.some.injEq]
          exact fun hc => (h (a :: l'') (by simp)).2 a (by simp) hc
    exact hasNN_append_cons l _ (h l (by simp)).2 hhd ihh

/-- Lexing a list of lines, each of which classifies successfully, yields
the corresponding tokens. -/
theorem lexLines_of_map {α : Type} (f : α → Str) (g : α → MarkdownToken)
    (xs : List α) (h : ∀ x ∈ xs, lexLine (f x) = .ok (g x)) :
    lexGroup.lexLines (xs.map f) = .ok (xs.map g) := by
  induction xs with
  | nil => rfl
  | cons x xs' ih =>
    show lexGroup.lexLines (f x :: xs'.map f) = _
    rw [lexGroup.lexLines]
    rw [h x (by simp), ih (fun y hy => h y (List.mem_cons_of_mem _ hy))]
    rfl

/-- Every character of a `# ` heading group, given a newline-free payload,
is not a newline. -/
theorem heading_chars (pre : Str) (t : Str) (hpre : ∀ a ∈ pre, ¬ a = '\n')
    (h : noNL t = true) : ∀ a ∈ pre ++ t, ¬ a = '\n' := by
  intro a ha
  rcases List.mem_append.mp ha with h1 | h2
  · exact hpre a h1
  · exact noNL_forall t h a h2

/-- A heading group with a newline-free payload lexes to its single
heading token. -/
theorem lexGroup_H1 (t : Str) (h : noNL t = true) :
    lexGroup ("# ".data ++ t) = .ok [.H1 t] := by
  have hchars : ∀ a ∈ "# ".data ++ t, ¬ a = '\n' :=
    heading_chars "# ".data t (by decide) h
  have htrim := trimStr_cons '#' (' ' :: t) (by decide)
  have hlines : rustLines ("# ".data ++ t) = ["# ".data ++ t] := by
    have := rustLines_icatSep ["# ".data ++ t] (by simp)
      (by intro l hl; simp at hl; subst hl; exact ⟨by simp, hchars⟩)
    simpa [icatSep] using this
  show lexGroup ('#' :: ' ' :: t) = .ok [.H1 t]
  simp only [lexGroup, htrim]
  rw [if_neg (by decide)]
  rw [if_pos (by decide)]
  rw [show rustLines ('#' :: ' ' :: t) = ["# ".data ++ t] from hlines]
  rw [lexGroup.lexLines, lexLine_H1, lexGroup.lexLines]
  rfl

/-- A level-2 heading group with a newline-free payload lexes to its single
heading token. -/
theorem lexGroup_H2 (t : Str) (h : noNL t = true) :
    lexGroup ("## ".data ++ t) = .ok [.H2 t] := by
  have hchars : ∀ a ∈ "## ".data ++ t, ¬ a = '\n' :=
    heading_chars "## ".data t (by decide) h
  have htrim := trimStr_cons '#' ('#' :: ' ' :: t) (by decide)
  have hlines : rustLines ("## ".data ++ t) = ["## ".data ++ t] := by
    have := rustLines_icatSep ["## ".data ++ t] (by simp)
      (by intro l hl; simp at hl; subst hl; exact ⟨by simp, hchars⟩)
    simpa [icatSep] using this
  show lexGroup ('#' :: '#' :: ' ' :: t) = .ok [.H2 t]
  simp only [lexGroup, htrim]
  rw [if_neg (by decide)]
  rw [if_pos (by decide)]
  rw [show rustLines ('#' :: '#' :: ' ' :: t) = ["## ".data ++ t] from hlines]
  rw [lexGroup.lexLines, lexLine_H2, lexGroup.lexLines]
  rfl

/-- A level-3 heading group with a newline-free payload lexes to its single
heading token. -/
theorem lexGroup_H3 (t : Str) (h : noNL t = true) :
    lexGroup ("### ".data ++ t) = .ok [.H3 t] := by
  have hchars : ∀ a ∈ "### ".data ++ t, ¬ a = '\n' :=
    heading_chars "### ".data t (by decide) h
  have htrim := trimStr_cons '#' ('#' :: '#' :: ' ' :: t) (by decide)
  have hlines : rustLines ("### ".data ++ t) = ["### ".data ++ t] := by
    have := rustLines_icatSep ["### ".data ++ t] (by simp)
      (by intro l hl; simp at hl; subst hl; exact ⟨by simp, hchars⟩)
    simpa [icatSep] using this
  show lexGroup ('#' :: '#' :: '#' :: ' ' :: t) = .ok [.H3 t]
  simp only [lexGroup, htrim]
  rw [if_neg (by decide)]
  rw [if_pos (by decide)]
  rw [show rustLines ('#' :: '#' :: '#' :: ' ' :: t) = ["### ".data ++ t] from hlines]
  rw [lexGroup.lexLines, lexLine_H3, lexGroup.lexLines]
  rfl

/-- A safe paragraph group lexes to its single opaque paragraph token. -/
theorem lexGroup_para (p : Str) (h : paraSafe p = true) :
    lexGroup p = .ok [.Paragraph p] := by
  simp only [paraSafe, Bool.and_eq_true, decide_eq_true_eq] at h
  obtain ⟨⟨⟨hne, hnn⟩, hlast⟩, hhead⟩ := h
  match htrim : trimStr p with
  | [] => rw [htrim] at hhead; exact absurd hhead (by simp)
  | c :: y =>
    rw [htrim] at hhead
    simp only [Bool.and_eq_true, decide_eq_true_eq] at hhead
    obtain ⟨⟨⟨hascii, hc1⟩, hc2⟩, hc3⟩ := hhead
    simp only [lexGroup, htrim]
    rw [if_neg (by omega)]
    rw [if_neg (by simp [hc1, hc2, hc3])]

/-- The characters of an item line: indent spaces, the dash marker, the
item text. -/
theorem itemLine_chars (it : Nat × Str) (h : noNL it.2 = true) :
    itemLine it ≠ [] ∧ ∀ a ∈ itemLine it, ¬ a = '\n' := by
  constructor
  · simp [itemLine]
  · intro a ha
    simp only [itemLine] at ha
    rcases List.mem_append.mp ha with h1 | h2
    · rcases List.mem_append.mp h1 with h3 | h4
      · have := List.eq_of_mem_replicate h3
        subst this
        decide
      · rcases (by simpa using h4 : a = '-' ∨ a = ' ') with rfl | rfl <;> decide
    · exact noNL_forall it.2 h a h2

/-- A non-empty, newline-free list group lexes to its item tokens. -/
theorem lexGroup_list (items : List (Nat × Str)) (hne : items ≠ [])
    (h : ∀ it ∈ items, noNL it.2 = true) :
    lexGroup (listGroupText items) = .ok (items.map itemTok) := by
  have hlchars : ∀ l ∈ items.map itemLine, l ≠ [] ∧ ∀ a ∈ l, ¬ a = '\n' := by
    intro l hl
    obtain ⟨it, hit, rfl⟩ := List.mem_map.mp hl
    exact itemLine_chars it (h it hit)
  have hlines : rustLines (listGroupText items) = items.map itemLine := by
    rw [listGroupText]
    exact rustLines_icatSep _ (by simpa using hne) hlchars
  have hdrop : ∃ z, (listGroupText items).dropWhile Char.isWhitespace = '-' :: z := by
    match items, hne with
    | it0 :: rest, _ =>
      match rest with
      | [] =>
        refine ⟨' ' :: it0.2, ?_⟩
        show (icatSep ['\n'] [itemLine it0]).dropWhile Char.isWhitespace = _
        simp only [icatSep, itemLine]
        rw [show List.replicate it0.1 ' ' ++ "- ".data ++ it0.2 =
          List.replicate it0.1 ' ' ++ '-' :: ' ' :: it0.2 by simp]
        exact dropWhile_replicate_space _ _ _ (by decide)
      | it1 :: rest' =>
        refine ⟨' ' :: (it0.2 ++ '\n' ::
          icatSep ['\n'] (itemLine it1 :: rest'.map itemLine)), ?_⟩
        show (icatSep ['\n'] (itemLine it0 :: itemLine it1 :: rest'.map itemLine)).dropWhile
          Char.isWhitespace = _
        rw [icatSep_cons_cons]
        simp only [List.cons_append, List.nil_append]
        rw [show itemLine it0 ++ '\n' :: icatSep ['\n'] (itemLine it1 :: rest'.map itemLine) =
          List.replicate it0.1 ' ' ++ '-' :: ' ' :: (it0.2 ++ '\n' ::
            icatSep ['\n'] (itemLine it1 :: rest'.map itemLine)) by simp [itemLine]]
        exact dropWhile_replicate_space _ _ _ (by decide)
  obtain ⟨z, hz⟩ := hdrop
  have htrim := trimStr_shape (listGroupText items) z '-' hz (by decide)
  simp only [lexGroup, htrim]
  rw [if_neg (by decide)]
  rw [if_pos (by decide)]
  rw [hlines]
  exact lexLines_of_map itemLine itemTok items
    (fun it hit => lexLine_LI it.1 it.2)

/-- The characters of a reference line. -/
theorem refLine_chars (r : RefDef) (hl : noNL r.label = true)
    (hu : noNL r.url = true) :
    refLine r ≠ [] ∧ ∀ a ∈ refLine r, ¬ a = '\n' := by
  constructor
  · simp [refLine]
  · intro a ha
    rw [show refLine r = '[' :: (r.label ++ ']' :: ':' :: ' ' :: r.url)
      by simp [refLine]] at ha
    rcases List.mem_cons.mp ha with rfl | ha2
    · decide
    rcases List.mem_append.mp ha2 with h1 | h2
    · exact noNL_forall r.label hl a h1
    rcases List.mem_cons.mp h2 with rfl | h3
    · decide
    rcases List.mem_cons.mp h3 with rfl | h4
    · decide
    rcases List.mem_cons.mp h4 with rfl | h5
    · decide
    · exact noNL_forall r.url hu a h5

/-- A non-empty block of safe reference lines lexes to its reference
tokens. -/
theorem lexGroup_refs (refs : List RefDef) (hne : refs ≠ [])
    (h : ∀ r ∈ refs, refSafe r = true) :
    lexGroup (icatSep ['\n'] (refs.map refLine)) =
      .ok (refs.map (fun r => .Reference r.label r.url)) := by
  have hprops : ∀ r ∈ refs, noNL r.label = true ∧ noNL r.url = true ∧
      hasCS ('[' :: r.label ++ "]".data) = false ∧ hasCS r.url = false := by
    intro r hr
    have := h r hr
    simp only [refSafe, Bool.and_eq_true, decide_eq_true_eq] at this
    exact ⟨this.1.1.1, this.1.1.2, this.1.2, this.2⟩
  have hlchars : ∀ l ∈ refs.map refLine, l ≠ [] ∧ ∀ a ∈ l, ¬ a = '\n' := by
    intro l hl
    obtain ⟨r, hr, rfl⟩ := List.mem_map.mp hl
    exact refLine_chars r (hprops r hr).1 (hprops r hr).2.1
  have hlines : rustLines (icatSep ['\n'] (refs.map refLine)) = refs.map refLine :=
    rustLines_icatSep _ (by simpa using hne) hlchars
  have hdrop : ∃ z, (icatSep ['\n'] (refs.map refLine)).dropWhile
      Char.isWhitespace = '[' :: z := by
    match refs, hne with
    | r0 :: rest, _ =>
      match rest with
      | [] =>
        refine ⟨r0.label ++ "]: ".data ++ r0.url, ?_⟩
        show (icatSep ['\n'] [refLine r0]).dropWhile Char.isWhitespace = _
        simp only [icatSep, refLine]
        rw [show ('[' :: r0.label ++ "]: ".data ++ r0.url).dropWhile Char.isWhitespace =
          ('[' :: (r0.label ++ "]: ".data ++ r0.url)).dropWhile Char.isWhitespace
          by simp]
        rw [List.dropWhile_cons, if_neg (by decide)]
      | r1 :: rest' =>
        refine ⟨(r0.label ++ "]: ".data ++ r0.url) ++ '\n' ::
          icatSep ['\n'] (refLine r1 :: rest'.map refLine), ?_⟩
        show (icatSep ['\n'] (refLine r0 :: refLine r1 :: rest'.map refLine)).dropWhile
          Char.isWhitespace = _
        rw [icatSep_cons_cons]
        simp only [List.cons_append, List.nil_append]
        rw [show refLine r0 ++ '\n' :: icatSep ['\n'] (refLine r1 :: rest'.map refLine) =
          '[' :: ((r0.label ++ "]: ".data ++ r0.url) ++ '\n' ::
            icatSep ['\n'] (refLine r1 :: rest'.map refLine)) by simp [refLine]]
        rw [List.dropWhile_cons, if_neg (by decide)]
  obtain ⟨z, hz⟩ := hdrop
  have htrim := trimStr_shape _ z '[' hz (by decide)
  simp only [lexGroup, htrim]
  rw [if_neg (by decide)]
  rw [if_pos (by decide)]
  rw [hlines]
  exact lexLines_of_map refLine (fun r => .Reference r.label r.url) refs
    (fun r hr => lexLine_Ref r.label r.url (hprops r hr).2.2.1 (hprops r hr).2.2.2)

/-- Membership in a concatenated image. -/
theorem mem_catMap {α β : Type} (f : α → List β) (xs : List α) (b : β) :
    b ∈ catMap f xs ↔ ∃ x ∈ xs, b ∈ f x := by
  induction xs with
  | nil => simp [catMap]
  | cons x xs' ih =>
    simp only [catMap, List.mem_append, ih, List.mem_cons]
    constructor
    · rintro (hb | ⟨y, hy, hb⟩)
      · exact ⟨x, Or.inl rfl, hb⟩
      · exact ⟨y, Or.inr hy, hb⟩
    · rintro ⟨y, rfl | hy, hb⟩
      · exact Or.inl hb
      · exact Or.inr ⟨y, hy, hb⟩

/-- `catMap` of singletons is `map`. -/
theorem catMap_singleton {α β : Type} (f : α → β) (xs : List α) :
    catMap (fun x => [f x]) xs = xs.map f := by
  induction xs with
  | nil => rfl
  | cons x xs' ih => simp [catMap, ih]

/-- Successful lexings of two group lists concatenate. -/
theorem lexGroups_append_ok {gs1 gs2 : List Str} {ts1 ts2 : List MarkdownToken}
    (h1 : lexGroups gs1 = .ok ts1) (h2 : lexGroups gs2 = .ok ts2) :
    lexGroups (gs1 ++ gs2) = .ok (ts1 ++ ts2) := by
  induction gs1 generalizing ts1 with
  | nil =>
    simp only [lexGroups] at h1
    cases h1
    simpa using h2
  | cons g gs' ih =>
    rw [lexGroups] at h1
    cases hg : lexGroup g with
    | error e =>
      rw [hg] at h1
      exact Except.noConfusion h1
    | ok a =>
      rw [hg] at h1
      cases hrest : lexGroups gs' with
      | error e =>
        rw [hrest] at h1
        exact Except.noConfusion h1
      | ok b =>
        rw [hrest] at h1
        have h1' : (Except.ok (a ++ b) : Except LexErr (List MarkdownToken)) =
            Except.ok ts1 := h1
        have hts : a ++ b = ts1 := by injection h1'
        show lexGroups (g :: (gs' ++ gs2)) = _
        rw [lexGroups, hg, ih hrest]
        show Except.ok (a ++ (b ++ ts2)) = _
        rw [← hts, List.append_assoc]

/-- Lexing every group of a list of units lexes their concatenation. -/
theorem lexGroups_all (gs : List Str) (T : Str → List MarkdownToken)
    (h : ∀ g ∈ gs, lexGroup g = .ok (T g)) :
    lexGroups gs = .ok (catMap T gs) := by
  induction gs with
  | nil => rfl
  | cons g gs' ih =>
    rw [lexGroups, h g (by simp), ih (fun x hx => h x (List.mem_cons_of_mem _ hx))]
    rfl

/-- Lexing the concatenated groups of mapped units. -/
theorem lexGroups_catMap {α : Type} (F : α → List Str)
    (G : α → List MarkdownToken) (xs : List α)
    (h : ∀ x ∈ xs, lexGroups (F x) = .ok (G x)) :
    lexGroups (catMap F xs) = .ok (catMap G xs) := by
  induction xs with
  | nil => rfl
  | cons x xs' ih =>
    show lexGroups (F x ++ catMap F xs') = _
    rw [lexGroups_append_ok (h x (by simp))
      (ih (fun y hy => h y (List.mem_cons_of_mem _ hy)))]
    rfl

/-- The groups of a safe subsection lex to its tokens. -/
theorem lexGroups_sub (ss : Subsec) (h : subSafe ss = true) :
    lexGroups (subGroups ss) = .ok (subToks ss) := by
  simp only [subSafe, Bool.and_eq_true, decide_eq_true_eq] at h
  obtain ⟨⟨hname, hne⟩, hitems⟩ := h
  have hitems' : ∀ it ∈ ss.items, noNL it.2 = true := by
    intro it hit
    exact List.all_eq_true.mp hitems it hit
  show lexGroups ["### ".data ++ ss.name, listGroupText ss.items] = _
  rw [lexGroups, lexGroup_H3 ss.name hname]
  rw [lexGroups, lexGroup_list ss.items (by simpa using hne) hitems']
  rw [lexGroups]
  show Except.ok ([MarkdownToken.H3 ss.name] ++ (List.map itemTok ss.items ++ [])) = _
  simp [subToks]

/-- The groups of a safe section lex to its tokens. -/
theorem lexGroups_sec (s : DocSection) (h : secSafe s = true) :
    lexGroups (secGroups s) = .ok (secToks s) := by
  simp only [secSafe, Bool.and_eq_true] at h
  obtain ⟨⟨hname, hlead⟩, hsubs⟩ := h
  have hsubs' : ∀ ss ∈ s.subs, subSafe ss = true :=
    fun ss hss => List.all_eq_true.mp hsubs ss hss
  have hsubsG : lexGroups (catMap subGroups s.subs) =
      .ok (catMap subToks s.subs) :=
    lexGroups_catMap subGroups subToks s.subs
      (fun ss hss => lexGroups_sub ss (hsubs' ss hss))
  show lexGroups (("## ".data ++ s.heading) ::
    ((match s.lead with
      | none => []
      | some items => [listGroupText items]) ++ catMap subGroups s.subs)) = _
  rw [lexGroups, lexGroup_H2 s.heading hname]
  match hl : s.lead with
  | none =>
    simp only [List.nil_append]
    rw [hsubsG]
    show Except.ok ([MarkdownToken.H2 s.heading] ++ catMap subToks s.subs) = _
    simp only [secToks, hl, List.nil_append, List.singleton_append]
  | some items =>
    rw [hl] at hlead
    simp only [Bool.and_eq_true, decide_eq_true_eq] at hlead
    have hitems' : ∀ it ∈ items, noNL it.2 = true :=
      fun it hit => List.all_eq_true.mp hlead.2 it hit
    have hlist : lexGroups [listGroupText items] = .ok (items.map itemTok) := by
      rw [lexGroups, lexGroup_list items (by simpa using hlead.1) hitems', lexGroups]
      show Except.ok (List.map itemTok items ++ []) = _
      simp
    rw [lexGroups_append_ok hlist hsubsG]
    show Except.ok ([MarkdownToken.H2 s.heading] ++
      (List.map itemTok items ++ catMap subToks s.subs)) = _
    simp only [secToks, hl, List.singleton_append]

/-- A heading-style group is well-behaved for the blank-line split. -/
theorem headingGroup_props (c : Char) (pre t : Str) (hc : ¬ c = '\n')
    (hpre : ∀ a ∈ pre, ¬ a = '\n') (ht : noNL t = true) :
    (hasNN ((c :: pre) ++ t) = false ∧ ¬ ((c :: pre) ++ t).getLast? = some '\n') ∧
      (c :: pre) ++ t ≠ [] := by
  have hchars : ∀ a ∈ (c :: pre) ++ t, ¬ a = '\n' := by
    intro a ha
    rcases List.mem_append.mp ha with h1 | h2
    · rcases List.mem_cons.mp h1 with rfl | h3
      · exact hc
      · exact hpre a h3
    · exact noNL_forall t ht a h2
  exact ⟨⟨hasNN_of_no_newline _ hchars, noNL_getLast _ hchars⟩, by simp⟩

/-- A list group is well-behaved for the blank-line split. -/
theorem listGroup_props (items : List (Nat × Str)) (hne : items ≠ [])
    (h : ∀ it ∈ items, noNL it.2 = true) :
    (hasNN (listGroupText items) = false ∧
      ¬ (listGroupText items).getLast? = some '\n') ∧ listGroupText items ≠ [] := by
  have hlchars : ∀ l ∈ items.map itemLine, l ≠ [] ∧ ∀ a ∈ l, ¬ a = '\n' := by
    intro l hl
    obtain ⟨it, hit, rfl⟩ := List.mem_map.mp hl
    exact itemLine_chars it (h it hit)
  refine ⟨⟨hasNN_icatSepNL _ hlchars, icatSepNL_getLast _ (by simpa using hne) hlchars⟩, ?_⟩
  rw [listGroupText]
  match items, hne with
  | it :: rest, _ =>
    exact icatSep_ne_nil _ _ _ (itemLine_chars it (h it (by simp))).1

/-- A reference block is well-behaved for the blank-line split. -/
theorem refsGroup_props (refs : List RefDef) (hne : refs ≠ [])
    (h : ∀ r ∈ refs, refSafe r = true) :
    (hasNN (icatSep ['\n'] (refs.map refLine)) = false ∧
      ¬ (icatSep ['\n'] (refs.map refLine)).getLast? = some '\n') ∧
      icatSep ['\n'] (refs.map refLine) ≠ [] := by
  have hprops : ∀ r ∈ refs, noNL r.label = true ∧ noNL r.url = true := by
    intro r hr
    have := h r hr
    simp only [refSafe, Bool.and_eq_true, decide_eq_true_eq] at this
    exact ⟨this.1.1.1, this.1.1.2⟩
  have hlchars : ∀ l ∈ refs.map refLine, l ≠ [] ∧ ∀ a ∈ l, ¬ a = '\n' := by
    intro l hl
    obtain ⟨r, hr, rfl⟩ := List.mem_map.mp hl
    exact refLine_chars r (hprops r hr).1 (hprops r hr).2
  refine ⟨⟨hasNN_icatSepNL _ hlchars, icatSepNL_getLast _ (by simpa using hne) hlchars⟩, ?_⟩
  match refs, hne with
  | r :: rest, _ =>
    exact icatSep_ne_nil _ _ _ (refLine_chars r (hprops r (by simp)).1
      (hprops r (by simp)).2).1

/-- A safe paragraph group is well-behaved for the blank-line split. -/
theorem paraGroup_props (p : Str) (h : paraSafe p = true) :
    (hasNN p = false ∧ ¬ p.getLast? = some '\n') ∧ p ≠ [] := by
  simp only [paraSafe, Bool.and_eq_true, decide_eq_true_eq] at h
  exact ⟨⟨h.1.1.2, h.1.2⟩, by simpa using h.1.1.1⟩

/-- Every group of a well-formed document is non-empty, holds no blank
line, and does not end in a newline. -/
theorem docGroups_props (d : Doc) (h : wellFormedDoc d = true) :
    ∀ g ∈ docGroups d, (hasNN g = false ∧ ¬ g.getLast? = some '\n') ∧ g ≠ [] := by
  simp only [wellFormedDoc, Bool.and_eq_true] at h
  obtain ⟨⟨⟨⟨htitle, hprose⟩, hsecs⟩, hrefs⟩, _⟩ := h
  intro g hg
  simp only [docGroups, List.mem_cons, List.mem_append] at hg
  rcases hg with rfl | hg2
  · exact headingGroup_props '#' (' ' :: []) d.title (by decide) (by decide) htitle
  rcases hg2 with (hpro | hsec) | hrefg
  · exact paraGroup_props g (List.all_eq_true.mp hprose g hpro)
  · obtain ⟨s, hs, hgs⟩ := (mem_catMap secGroups d.sections g).mp hsec
    have hss := List.all_eq_true.mp hsecs s hs
    simp only [secSafe, Bool.and_eq_true] at hss
    obtain ⟨⟨hname, hlead⟩, hsubs⟩ := hss
    simp only [secGroups, List.mem_cons, List.mem_append] at hgs
    rcases hgs with rfl | hgs2
    · exact headingGroup_props '#' ('#' :: ' ' :: []) s.heading (by decide)
        (by decide) hname
    rcases hgs2 with hglead | hgsub
    · match hl : s.lead with
      | none => rw [hl] at hglead; simp at hglead
      | some items =>
        rw [hl] at hglead hlead
        simp only [List.mem_singleton] at hglead
        subst hglead
        simp only [Bool.and_eq_true, decide_eq_true_eq] at hlead
        exact listGroup_props items (by simpa using hlead.1)
          (fun it hit => List.all_eq_true.mp hlead.2 it hit)
    · obtain ⟨ss, hssm, hgss⟩ := (mem_catMap subGroups s.subs g).mp hgsub
      have hsafe := List.all_eq_true.mp hsubs ss hssm
      simp only [subSafe, Bool.and_eq_true, decide_eq_true_eq] at hsafe
      simp only [subGroups, List.mem_cons, List.mem_singleton] at hgss
      rcases hgss with rfl | hgss2
      · exact headingGroup_props '#' ('#' :: '#' :: ' ' :: []) ss.name (by decide)
          (by decide) hsafe.1.1
      · rcases hgss2 with rfl | hfalse
        · exact listGroup_props ss.items (by simpa using hsafe.1.2)
            (fun it hit => List.all_eq_true.mp hsafe.2 it hit)
        · simp at hfalse
  · match hr : d.refs with
    | [] => rw [hr] at hrefg; simp at hrefg
    | r :: rs =>
      rw [hr] at hrefg hrefs
      simp only [List.mem_singleton] at hrefg
      subst hrefg
      exact refsGroup_props (r :: rs) (by simp)
        (fun x hx => List.all_eq_true.mp hrefs x hx)

/-- Lexing the persisted text of a well-formed document produces exactly
its token sequence. -/
theorem lex_docText (d : Doc) (h : wellFormedDoc d = true) :
    lex (docText d) = .ok (docToks d) := by
  have hprops := docGroups_props d h
  simp only [wellFormedDoc, Bool.and_eq_true] at h
  obtain ⟨⟨⟨⟨htitle, hprose⟩, hsecs⟩, hrefs⟩, _⟩ := h
  have hsplit : splitNN (docText d) = docGroups d := by
    rw [docText]
    exact splitNN_icatSep (docGroups d) (by simp [docGroups])
      (fun g hg => (hprops g hg).1)
  have hfilter : (docGroups d).filter (fun g => ¬ g.isEmpty) = docGroups d := by
    rw [List.filter_eq_self]
    intro g hg
    simpa using (hprops g hg).2
  rw [lex, hsplit, hfilter]
  have hproseG : lexGroups d.prose = .ok (d.prose.map .Paragraph) := by
    have := lexGroups_all d.prose (fun p => [.Paragraph p])
      (fun g hg => lexGroup_para g (List.all_eq_true.mp hprose g hg))
    rwa [catMap_singleton] at this
  have hsecsG : lexGroups (catMap secGroups d.sections) =
      .ok (catMap secToks d.sections) :=
    lexGroups_catMap secGroups secToks d.sections
      (fun s hs => lexGroups_sec s (List.all_eq_true.mp hsecs s hs))
  have hrefsG : lexGroups (match d.refs with
      | [] => []
      | rs => [icatSep ['\n'] (rs.map refLine)]) =
      .ok (d.refs.map (fun r => .Reference r.label r.url)) := by
    match hr : d.refs with
    | [] => rfl
    | r :: rs =>
      rw [hr] at hrefs
      rw [lexGroups, lexGroup_refs (r :: rs) (by simp)
        (fun x hx => List.all_eq_true.mp hrefs x hx), lexGroups]
      show Except.ok ((r :: rs).map (fun r => MarkdownToken.Reference r.label r.url)
        ++ []) = _
      simp
  show lexGroups (("# ".data ++ d.title) :: (d.prose ++ catMap secGroups d.sections ++
    (match d.refs with
     | [] => []
     | rs => [icatSep ['\n'] (rs.map refLine)]))) = _
  rw [lexGroups, lexGroup_H1 d.title htitle]
  rw [lexGroups_append_ok (lexGroups_append_ok hproseG hsecsG) hrefsG]
  show Except.ok ([MarkdownToken.H1 d.title] ++
    (d.prose.map .Paragraph ++ catMap secToks d.sections ++
      d.refs.map (fun r => .Reference r.label r.url))) = _
  simp [docToks]

/-- Option-level stop set of an open `H3` heading: tokens (or the end of
input) at which the builder closes an `H3` subtree. -/
def stopH3tok : Option MarkdownToken → Bool
  | none => true
  | some (.H1 _) => true
  | some (.H2 _) => true
  | some (.H3 _) => true
  | some (.Reference _ _) => true
  | _ => false

/-- Option-level stop set of an open `H2` heading. -/
def stopH2tok : Option MarkdownToken → Bool
  | none => true
  | some (.H1 _) => true
  | some (.H2 _) => true
  | some (.Reference _ _) => true
  | _ => false

/-- Option-level stop set of an open `H1` heading. -/
def stopH1tok : Option MarkdownToken → Bool
  | none => true
  | some (.H1 _) => true
  | some (.Reference _ _) => true
  | _ => false

/-- The `H2` stop set is contained in the `H3` stop set. -/
theorem stopH2tok_le (o : Option MarkdownToken) (h : stopH2tok o = true) :
    stopH3tok o = true := by
  match o with
  | none => rfl
  | some t => cases t <;> simp [stopH2tok, stopH3tok] at h ⊢

/-- The `H1` stop set is contained in the `H2` stop set. -/
theorem stopH1tok_le (o : Option MarkdownToken) (h : stopH1tok o = true) :
    stopH2tok o = true := by
  match o with
  | none => rfl
  | some t => cases t <;> simp [stopH1tok, stopH2tok] at h ⊢

/-- `takeWhile` runs through a fully satisfying prefix. -/
theorem takeWhile_append_all {α : Type} {p : α → Bool} (xs ys : List α)
    (h : ∀ x ∈ xs, p x = true) :
    (xs ++ ys).takeWhile p = xs ++ ys.takeWhile p := by
  induction xs with
  | nil => simp
  | cons x xs' ih =>
    simp only [List.cons_append, List.takeWhile_cons, h x (by simp), if_true]
    rw [ih (fun y hy => h y (List.mem_cons_of_mem _ hy))]

/-- `dropWhile` runs through a fully satisfying prefix. -/
theorem dropWhile_append_all {α : Type} {p : α → Bool} (xs ys : List α)
    (h : ∀ x ∈ xs, p x = true) :
    (xs ++ ys).dropWhile p = ys.dropWhile p := by
  induction xs with
  | nil => simp
  | cons x xs' ih =>
    simp only [List.cons_append, List.dropWhile_cons, h x (by simp), if_true]
    exact ih (fun y hy => h y (List.mem_cons_of_mem _ hy))

/-- A token list whose head is in the `H3` stop set starts with no list
item. -/
theorem takeWhile_isLI_stop (rest : List MarkdownToken)
    (h : stopH3tok rest.head? = true) :
    rest.takeWhile isLI = [] ∧ rest.dropWhile isLI = rest := by
  match rest with
  | [] => exact ⟨rfl, rfl⟩
  | t :: r =>
    cases t <;> simp_all [stopH3tok, List.takeWhile_cons, List.dropWhile_cons, isLI]

/-- Item tokens are list items. -/
theorem isLI_itemTok (it : Nat × Str) : isLI (itemTok it) = true := rfl

/-- The leaf of an item token is its list leaf node. -/
theorem fromToken_itemTok (it : Nat × Str) :
    Node.fromToken (itemTok it) = liLeaf it := rfl

/-- `dropWhile` never lengthens a list. -/
theorem length_dropWhile_le {α : Type} (p : α → Bool) (l : List α) :
    (l.dropWhile p).length ≤ l.length := by
  induction l with
  | nil => simp
  | cons a l' ih =>
    rw [List.dropWhile_cons]
    by_cases hp : p a = true
    · rw [if_pos hp]
      simp only [List.length_cons]
      omega
    · rw [if_neg hp]

/-- One step of the builder on a level-1 heading token. -/
theorem buildF_step_H1 (f : Nat) (s : Str) (rest : List MarkdownToken)
    (parent : Option MarkdownToken) :
    buildF (f+1) (MarkdownToken.H1 s :: rest) parent =
    (if shouldStop parent (buildF f rest (some (.H1 s))).2.head? then
      ([.mk (some (.H1 s)) (buildF f rest (some (.H1 s))).1],
        (buildF f rest (some (.H1 s))).2)
     else
      (.mk (some (.H1 s)) (buildF f rest (some (.H1 s))).1 ::
        (buildF f (buildF f rest (some (.H1 s))).2 parent).1,
       (buildF f (buildF f rest (some (.H1 s))).2 parent).2)) := rfl

/-- One step of the builder on a level-2 heading token. -/
theorem buildF_step_H2 (f : Nat) (s : Str) (rest : List MarkdownToken)
    (parent : Option MarkdownToken) :
    buildF (f+1) (MarkdownToken.H2 s :: rest) parent =
    (if shouldStop parent (buildF f rest (some (.H2 s))).2.head? then
      ([.mk (some (.H2 s)) (buildF f rest (some (.H2 s))).1],
        (buildF f rest (some (.H2 s))).2)
     else
      (.mk (some (.H2 s)) (buildF f rest (some (.H2 s))).1 ::
        (buildF f (buildF f rest (some (.H2 s))).2 parent).1,
       (buildF f (buildF f rest (some (.H2 s))).2 parent).2)) := rfl

/-- One step of the builder on a level-3 heading token. -/
theorem buildF_step_H3 (f : Nat) (s : Str) (rest : List MarkdownToken)
    (parent : Option MarkdownToken) :
    buildF (f+1) (MarkdownToken.H3 s :: rest) parent =
    (if shouldStop parent (buildF f rest (some (.H3 s))).2.head? then
      ([.mk (some (.H3 s)) (buildF f rest (some (.H3 s))).1],
        (buildF f rest (some (.H3 s))).2)
     else
      (.mk (some (.H3 s)) (buildF f rest (some (.H3 s))).1 ::
        (buildF f (buildF f rest (some (.H3 s))).2 parent).1,
       (buildF f (buildF f rest (some (.H3 s))).2 parent).2)) := rfl

/-- One step of the builder on a list-item token: the whole run of list
items is absorbed into one synthetic list node. -/
theorem buildF_step_LI (f : Nat) (s : Str) (i : Nat) (rest : List MarkdownToken)
    (parent : Option MarkdownToken) :
    buildF (f+1) (MarkdownToken.ListItem s i :: rest) parent =
    (if shouldStop parent (rest.dropWhile isLI).head? then
      ([.mk (some .UnorderedList)
          (Node.fromToken (.ListItem s i) :: (rest.takeWhile isLI).map Node.fromToken)],
        rest.dropWhile isLI)
     else
      (.mk (some .UnorderedList)
          (Node.fromToken (.ListItem s i) :: (rest.takeWhile isLI).map Node.fromToken) ::
        (buildF f (rest.dropWhile isLI) parent).1,
       (buildF f (rest.dropWhile isLI) parent).2)) := rfl

/-- One step of the builder on a paragraph token: a childless leaf. -/
theorem buildF_step_P (f : Nat) (s : Str) (rest : List MarkdownToken)
    (parent : Option MarkdownToken) :
    buildF (f+1) (MarkdownToken.Paragraph s :: rest) parent =
    (if shouldStop parent rest.head? then
      ([Node.fromToken (.Paragraph s)], rest)
     else
      (Node.fromToken (.Paragraph s) :: (buildF f rest parent).1,
       (buildF f rest parent).2)) := rfl

/-- One step of the builder on a reference token: a childless leaf. -/
theorem buildF_step_R (f : Nat) (a b : Str) (rest : List MarkdownToken)
    (parent : Option MarkdownToken) :
    buildF (f+1) (MarkdownToken.Reference a b :: rest) parent =
    (if shouldStop parent rest.head? then
      ([Node.fromToken (.Reference a b)], rest)
     else
      (Node.fromToken (.Reference a b) :: (buildF f rest parent).1,
       (buildF f rest parent).2)) := rfl

/-- The unconsumed tokens of the builder form a suffix no longer than the
input. -/
theorem buildF_snd_le (fuel : Nat) (ts : List MarkdownToken)
    (parent : Option MarkdownToken) :
    (buildF fuel ts parent).2.length ≤ ts.length := by
  induction fuel generalizing ts parent with
  | zero => simp [buildF]
  | succ f ih =>
    match ts with
    | [] => simp [buildF]
    | t :: rest =>
      have hstep : ∀ s2 : List MarkdownToken, s2.length ≤ rest.length →
          ∀ n1 : Node, (if shouldStop parent s2.head? then ([n1], s2)
            else (n1 :: (buildF f s2 parent).1, (buildF f s2 parent).2)).2.length ≤
            (t :: rest).length := by
        intro s2 hs2 n1
        by_cases hss : shouldStop parent s2.head? = true
        · rw [if_pos hss]
          simp only [List.length_cons]
          omega
        · rw [if_neg hss]
          have := ih s2 parent
          simp only [List.length_cons]
          omega
      match t with
      | .H1 s =>
        rw [buildF_step_H1]
        exact hstep _ (ih rest (some (.H1 s))) _
      | .H2 s =>
        rw [buildF_step_H2]
        exact hstep _ (ih rest (some (.H2 s))) _
      | .H3 s =>
        rw [buildF_step_H3]
        exact hstep _ (ih rest (some (.H3 s))) _
      | .ListItem s i =>
        rw [buildF_step_LI]
        exact hstep _ (length_dropWhile_le isLI rest) _
      | .Paragraph s =>
        rw [buildF_step_P]
        exact hstep _ (le_refl _) _
      | .Reference a b =>
        rw [buildF_step_R]
        exact hstep _ (le_refl _) _
      | .UnorderedList =>
        rw [show buildF (f+1) (MarkdownToken.UnorderedList :: rest) parent =
          (if shouldStop parent rest.head? then
            ([Node.fromToken .UnorderedList], rest)
           else
            (Node.fromToken .UnorderedList :: (buildF f rest parent).1,
             (buildF f rest parent).2)) from rfl]
        exact hstep _ (le_refl _) _
      | .BlankLine =>
        rw [show buildF (f+1) (MarkdownToken.BlankLine :: rest) parent =
          (if shouldStop parent rest.head? then
            ([Node.fromToken .BlankLine], rest)
           else
            (Node.fromToken .BlankLine :: (buildF f rest parent).1,
             (buildF f rest parent).2)) from rfl]
        exact hstep _ (le_refl _) _

/-- The builder consumes nothing from an empty token list. -/
theorem buildF_nil (fuel : Nat) (parent : Option MarkdownToken) :
    buildF fuel [] parent = ([], []) := by
  cases fuel with
  | zero => rfl
  | succ f => rfl

/-- The builder under an open `H3` heading absorbs a non-empty run of item
tokens into one list node and stops at the `H3` stop set. -/
theorem buildF_H3body (fuel : Nat) (items : List (Nat × Str)) (nm : Str)
    (rest : List MarkdownToken)
    (hf : (items.map itemTok ++ rest).length < fuel) (hne : items ≠ [])
    (hstop : stopH3tok rest.head? = true) :
    buildF fuel (items.map itemTok ++ rest) (some (.H3 nm)) =
      ([ulNodeOf items], rest) := by
  match items, hne with
  | i0 :: itail, _ =>
    cases fuel with
    | zero => exact absurd hf (by simp)
    | succ f =>
      simp only [List.map_cons, List.cons_append]
      show buildF (f+1) (MarkdownToken.ListItem i0.2 i0.1 ::
        (itail.map itemTok ++ rest)) (some (.H3 nm)) = _
      rw [buildF_step_LI]
      have hT : (itail.map itemTok ++ rest).takeWhile isLI = itail.map itemTok := by
        rw [takeWhile_append_all _ _ (by
          intro x hx
          obtain ⟨it, _, rfl⟩ := List.mem_map.mp hx
          rfl)]
        rw [(takeWhile_isLI_stop rest hstop).1, List.append_nil]
      have hD : (itail.map itemTok ++ rest).dropWhile isLI = rest := by
        rw [dropWhile_append_all _ _ (by
          intro x hx
          obtain ⟨it, _, rfl⟩ := List.mem_map.mp hx
          rfl)]
        exact (takeWhile_isLI_stop rest hstop).2
      rw [hT, hD]
      have hnode : Node.mk (some .UnorderedList)
          (Node.fromToken (.ListItem i0.2 i0.1) :: (itail.map itemTok).map Node.fromToken) =
          ulNodeOf (i0 :: itail) := by
        simp only [ulNodeOf, List.map_cons, List.map_map]
        rfl
      rw [hnode]
      match rest, hstop with
      | [], _ =>
        rw [if_neg (by simp [shouldStop, stopsAt])]
        rw [buildF_nil]
      | t :: r, hstop =>
        have hss : shouldStop (some (.H3 nm)) (t :: r).head? = true := by
          cases t <;> simp_all [stopH3tok, shouldStop, stopsAt]
        rw [if_pos hss]

/-- The builder under an open `H2` heading turns a non-empty run of
subsections into their subtrees and stops at the `H2` stop set. -/
theorem buildF_H2subs (fuel : Nat) (subs : List Subsec) (h : Str)
    (rest : List MarkdownToken)
    (hf : (catMap subToks subs ++ rest).length < fuel) (hne : subs ≠ [])
    (hwf : ∀ ss ∈ subs, ss.items ≠ [])
    (hstop : stopH2tok rest.head? = true) :
    buildF fuel (catMap subToks subs ++ rest) (some (.H2 h)) =
      (subs.map subNode, rest) := by
  match subs, hne with
  | ss :: subs', _ =>
    cases fuel with
    | zero => exact absurd hf (by simp [catMap])
    | succ f =>
      have hshape : catMap subToks (ss :: subs') ++ rest =
          MarkdownToken.H3 ss.name ::
            (ss.items.map itemTok ++ (catMap subToks subs' ++ rest)) := by
        simp [catMap, subToks, List.append_assoc]
      rw [hshape]
      rw [buildF_step_H3]
      have hstop' : stopH3tok (catMap subToks subs' ++ rest).head? = true := by
        match subs' with
        | [] =>
          simp only [catMap, List.nil_append]
          exact stopH2tok_le _ hstop
        | s2 :: subs'' =>
          show stopH3tok ((subToks s2 ++ catMap subToks subs'') ++ rest).head? = true
          simp [subToks, stopH3tok]
      have hinner := buildF_H3body f ss.items ss.name (catMap subToks subs' ++ rest)
        (by
          rw [hshape] at hf
          simp only [List.length_cons] at hf
          omega)
        (hwf ss (by simp)) hstop'
      simp only [hinner]
      match subs' with
      | s2 :: subs'' =>
        have hhd : (catMap subToks (s2 :: subs'') ++ rest).head? =
            some (.H3 s2.name) := by
          show ((subToks s2 ++ catMap subToks subs'') ++ rest).head? = _
          simp [subToks]
        rw [if_neg (by rw [hhd]; simp [shouldStop, stopsAt])]
        have hrec := buildF_H2subs f (s2 :: subs'') h rest
          (by
            rw [hshape] at hf
            simp only [List.length_cons, List.length_append] at hf ⊢
            omega)
          (by simp)
          (fun x hx => hwf x (List.mem_cons_of_mem _ hx)) hstop
        rw [hrec]
        rfl
      | [] =>
        simp only [catMap, List.nil_append]
        match rest, hstop with
        | [], _ =>
          rw [if_neg (by simp [shouldStop, stopsAt])]
          rw [buildF_nil]
          rfl
        | t :: r, hstop =>
          have hss : shouldStop (some (.H2 h)) (t :: r).head? = true := by
            cases t <;> simp_all [stopH2tok, shouldStop, stopsAt]
          rw [if_pos hss]
          rfl

/-- The body tokens of a section (everything after its `H2` heading). -/
def secBodyToks (s : DocSection) : List MarkdownToken :=
  (match s.lead with
   | none => []
   | some items => items.map itemTok) ++ catMap subToks s.subs

/-- A section's tokens are its heading followed by its body tokens. -/
theorem secToks_eq (s : DocSection) :
    secToks s = .H2 s.heading :: secBodyToks s := rfl

/-- The builder under an open `H2` heading turns the section body into the
section's children and stops at the `H2` stop set. -/
theorem buildF_H2sec (fuel : Nat) (s : DocSection) (rest : List MarkdownToken)
    (hf : (secBodyToks s ++ rest).length < fuel) (hsafe : secSafe s = true)
    (hstop : stopH2tok rest.head? = true) :
    buildF fuel (secBodyToks s ++ rest) (some (.H2 s.heading)) =
      ((secNode s).children, rest) := by
  simp only [secSafe, Bool.and_eq_true] at hsafe
  obtain ⟨⟨hname, hlead⟩, hsubs⟩ := hsafe
  have hwf : ∀ ss ∈ s.subs, ss.items ≠ [] := by
    intro ss hss
    have := List.all_eq_true.mp hsubs ss hss
    simp only [subSafe, Bool.and_eq_true, decide_eq_true_eq] at this
    simpa using this.1.2
  match hl : s.lead with
  | none =>
    rw [hl] at hlead
    simp only [decide_eq_true_eq] at hlead
    have hsubs_ne : s.subs ≠ [] := by simpa using hlead
    have hshape : secBodyToks s ++ rest = catMap subToks s.subs ++ rest := by
      simp [secBodyToks, hl]
    rw [hshape]
    rw [buildF_H2subs fuel s.subs s.heading rest (by rw [← hshape]; exact hf)
      hsubs_ne hwf hstop]
    simp [secNode, hl, Node.children]
  | some items =>
    rw [hl] at hlead
    simp only [Bool.and_eq_true, decide_eq_true_eq] at hlead
    have hitems_ne : items ≠ [] := by simpa using hlead.1
    have hshape : secBodyToks s ++ rest =
        items.map itemTok ++ (catMap subToks s.subs ++ rest) := by
      simp [secBodyToks, hl, List.append_assoc]
    rw [hshape]
    match items, hitems_ne with
    | i0 :: itail, _ =>
      cases fuel with
      | zero => exact absurd hf (by simp)
      | succ f =>
        simp only [List.map_cons, List.cons_append]
        show buildF (f+1) (MarkdownToken.ListItem i0.2 i0.1 ::
          (itail.map itemTok ++ (catMap subToks s.subs ++ rest)))
          (some (.H2 s.heading)) = _
        rw [buildF_step_LI]
        have hstop3 : stopH3tok (catMap subToks s.subs ++ rest).head? = true := by
          match hsub : s.subs with
          | [] =>
            simp only [catMap, List.nil_append]
            exact stopH2tok_le _ hstop
          | s2 :: subs'' =>
            show stopH3tok ((subToks s2 ++ catMap subToks subs'') ++ rest).head? = true
            simp [subToks, stopH3tok]
        have hT : (itail.map itemTok ++ (catMap subToks s.subs ++ rest)).takeWhile isLI =
            itail.map itemTok := by
          rw [takeWhile_append_all _ _ (by
            intro x hx
            obtain ⟨it, _, rfl⟩ := List.mem_map.mp hx
            rfl)]
          rw [(takeWhile_isLI_stop _ hstop3).1, List.append_nil]
        have hD : (itail.map itemTok ++ (catMap subToks s.subs ++ rest)).dropWhile isLI =
            catMap subToks s.subs ++ rest := by
          rw [dropWhile_append_all _ _ (by
            intro x hx
            obtain ⟨it, _, rfl⟩ := List.mem_map.mp hx
            rfl)]
          exact (takeWhile_isLI_stop _ hstop3).2
        rw [hT, hD]
        have hnode : Node.mk (some .UnorderedList)
            (Node.fromToken (.ListItem i0.2 i0.1) ::
              (itail.map itemTok).map Node.fromToken) =
            ulNodeOf (i0 :: itail) := by
          simp only [ulNodeOf, List.map_cons, List.map_map]
          rfl
        rw [hnode]
        match hsub : s.subs with
        | s2 :: subs'' =>
          have hhd : (catMap subToks (s2 :: subs'') ++ rest).head? =
              some (.H3 s2.name) := by
            show ((subToks s2 ++ catMap subToks subs'') ++ rest).head? = _
            simp [subToks]
          rw [if_neg (by rw [hhd]; simp [shouldStop, stopsAt])]
          rw [buildF_H2subs f (s2 :: subs'') s.heading rest
            (by
              rw [hshape] at hf
              rw [hsub] at hf
              simp only [List.map_cons, List.cons_append, List.length_cons,
                List.length_append, List.length_map] at hf ⊢
              omega)
            (by simp) (by rw [hsub] at hwf; exact hwf) hstop]
          simp [secNode, hl, hsub, Node.children]
        | [] =>
          simp only [catMap, List.nil_append]
          match rest, hstop with
          | [], _ =>
            rw [if_neg (by simp [shouldStop, stopsAt])]
            rw [buildF_nil]
            simp [secNode, hl, hsub, Node.children]
          | t :: r, hstop =>
            have hss : shouldStop (some (.H2 s.heading)) (t :: r).head? = true := by
              cases t <;> simp_all [stopH2tok, shouldStop, stopsAt]
            rw [if_pos hss]
            simp [secNode, hl, hsub, Node.children]

/-- The builder under an open `H1` heading turns a run of safe sections
into their subtrees, stopping at the `H1` stop set (which must hold no
tokens at all when there are no sections). -/
theorem buildF_H1secs (fuel : Nat) (sections : List DocSection) (t : Str)
    (rest : List MarkdownToken)
    (hf : (catMap secToks sections ++ rest).length < fuel)
    (hsecs : ∀ s ∈ sections, secSafe s = true)
    (hstop : stopH1tok rest.head? = true)
    (hne : sections = [] → rest = []) :
    buildF fuel (catMap secToks sections ++ rest) (some (.H1 t)) =
      (sections.map secNode, rest) := by
  match sections with
  | [] =>
    rw [hne rfl]
    simp only [catMap, List.nil_append, List.map_nil]
    exact buildF_nil fuel _
  | s :: secs' =>
    cases fuel with
    | zero => exact absurd hf (by simp)
    | succ f =>
      have hshape : catMap secToks (s :: secs') ++ rest =
          MarkdownToken.H2 s.heading ::
            (secBodyToks s ++ (catMap secToks secs' ++ rest)) := by
        show (secToks s ++ catMap secToks secs') ++ rest = _
        rw [secToks_eq]
        simp [List.append_assoc]
      rw [hshape]
      rw [buildF_step_H2]
      have hstop2 : stopH2tok (catMap secToks secs' ++ rest).head? = true := by
        match secs' with
        | [] =>
          simp only [catMap, List.nil_append]
          exact stopH1tok_le _ hstop
        | s2 :: secs'' =>
          show stopH2tok ((secToks s2 ++ catMap secToks secs'') ++ rest).head? = true
          rw [secToks_eq]
          simp [stopH2tok]
      have hinner := buildF_H2sec f s (catMap secToks secs' ++ rest)
        (by
          rw [hshape] at hf
          simp only [List.length_cons] at hf
          omega)
        (hsecs s (by simp)) hstop2
      simp only [hinner]
      match secs' with
      | s2 :: secs'' =>
        have hhd : (catMap secToks (s2 :: secs'') ++ rest).head? =
            some (.H2 s2.heading) := by
          show ((secToks s2 ++ catMap secToks secs'') ++ rest).head? = _
          rw [secToks_eq]
          simp
        rw [if_neg (by rw [hhd]; simp [shouldStop, stopsAt])]
        rw [buildF_H1secs f (s2 :: secs'') t rest
          (by
            rw [hshape] at hf
            simp only [List.length_cons, List.length_append] at hf ⊢
            omega)
          (fun x hx => hsecs x (List.mem_cons_of_mem _ hx)) hstop
          (by intro hc; simp at hc)]
        simp [secNode, Node.children]
      | [] =>
        simp only [catMap, List.nil_append]
        match rest, hstop with
        | [], _ =>
          rw [if_neg (by simp [shouldStop, stopsAt])]
          rw [buildF_nil]
          simp [secNode, Node.children]
        | tk :: r, hstop =>
          have hss : shouldStop (some (.H1 t)) (tk :: r).head? = true := by
            cases tk <;> simp_all [stopH1tok, shouldStop, stopsAt]
          rw [if_pos hss]
          simp [secNode, Node.children]

/-- The builder under an open `H1` heading lays out prose paragraphs and
sections as the title's children, stopping at the `H1` stop set. -/
theorem buildF_H1body (fuel : Nat) (prose : List Str)
    (sections : List DocSection) (t : Str) (rest : List MarkdownToken)
    (hf : (prose.map MarkdownToken.Paragraph ++ (catMap secToks sections ++ rest)).length < fuel)
    (hsecs : ∀ s ∈ sections, secSafe s = true)
    (hstop : stopH1tok rest.head? = true)
    (hne : prose = [] → sections = [] → rest = []) :
    buildF fuel (prose.map MarkdownToken.Paragraph ++ (catMap secToks sections ++ rest))
      (some (.H1 t)) =
      (prose.map (fun p => Node.mk (some (.Paragraph p)) []) ++ sections.map secNode,
        rest) := by
  match prose with
  | [] =>
    simp only [List.map_nil, List.nil_append]
    exact buildF_H1secs fuel sections t rest (by simpa using hf) hsecs hstop (hne rfl)
  | p :: prose' =>
    cases fuel with
    | zero => exact absurd hf (by simp)
    | succ f =>
      simp only [List.map_cons, List.cons_append]
      rw [buildF_step_P]
      match prose' with
      | q :: prose'' =>
        rw [if_neg (by simp [shouldStop, stopsAt])]
        rw [buildF_H1body f (q :: prose'') sections t rest
          (by
            simp only [List.map_cons, List.cons_append, List.length_cons] at hf ⊢
            omega)
          hsecs hstop (by intro hc; simp at hc)]
        rfl
      | [] =>
        simp only [List.map_nil, List.nil_append]
        match sections with
        | s2 :: secs' =>
          have hhd : (catMap secToks (s2 :: secs') ++ rest).head? =
              some (.H2 s2.heading) := by
            show ((secToks s2 ++ catMap secToks secs') ++ rest).head? = _
            rw [secToks_eq]
            simp
          rw [if_neg (by rw [hhd]; simp [shouldStop, stopsAt])]
          rw [buildF_H1secs f (s2 :: secs') t rest
            (by
              simp only [List.map_cons, List.map_nil, List.cons_append,
                List.nil_append, List.length_cons] at hf ⊢
              omega)
            hsecs hstop (by intro hc; simp at hc)]
          rfl
        | [] =>
          simp only [catMap, List.nil_append]
          match rest, hstop with
          | [], _ =>
            rw [if_neg (by simp [shouldStop, stopsAt])]
            rw [buildF_nil]
            rfl
          | tk :: r, hstop =>
            have hss : shouldStop (some (.H1 t)) (tk :: r).head? = true := by
              cases tk <;> simp_all [stopH1tok, shouldStop, stopsAt]
            rw [if_pos hss]
            rfl

/-- The builder at the root turns trailing reference tokens into childless
leaves and consumes everything. -/
theorem buildF_refsRoot (fuel : Nat) (refs : List RefDef)
    (hf : refs.length < fuel) :
    buildF fuel (refs.map (fun r => MarkdownToken.Reference r.label r.url)) none =
      (refs.map (fun r => Node.mk (some (.Reference r.label r.url)) []), []) := by
  match refs with
  | [] =>
    exact buildF_nil fuel none
  | r :: refs' =>
    cases fuel with
    | zero => exact absurd hf (by simp)
    | succ f =>
      simp only [List.map_cons]
      rw [buildF_step_R]
      rw [if_neg (by simp [shouldStop])]
      rw [buildF_refsRoot f refs' (by simp only [List.length_cons] at hf; omega)]
      rfl

/-- Building the token sequence of a well-formed document yields exactly
the expected tree's children, consuming every token. -/
theorem buildNodes_docToks (d : Doc) (h : wellFormedDoc d = true) :
    buildNodes (docToks d) none = ((docTree d).children, []) := by
  have hwf := h
  simp only [wellFormedDoc, Bool.and_eq_true] at hwf
  obtain ⟨⟨⟨⟨htitle, hprose⟩, hsecs⟩, hrefs⟩, hbody⟩ := hwf
  have hsecs' : ∀ s ∈ d.sections, secSafe s = true :=
    fun s hs => List.all_eq_true.mp hsecs s hs
  have hrest : stopH1tok ((d.refs.map
      (fun r => MarkdownToken.Reference r.label r.url)).head?) = true := by
    match d.refs with
    | [] => rfl
    | r :: rs => rfl
  have hne : d.prose = [] → d.sections = [] →
      d.refs.map (fun r => MarkdownToken.Reference r.label r.url) = [] := by
    intro h1 h2
    simp only [h1, h2, Bool.or_eq_true, decide_eq_true_eq] at hbody
    rcases hbody with (hc | hc) | hc
    · simp at hc
    · simp at hc
    · simp [List.isEmpty_iff.mp hc]
  have hshape : docToks d = MarkdownToken.H1 d.title ::
      (d.prose.map .Paragraph ++ (catMap secToks d.sections ++
        d.refs.map (fun r => .Reference r.label r.url))) := by
    rw [docToks]
    simp [List.append_assoc]
  rw [buildNodes, hshape]
  have hlen : ((MarkdownToken.H1 d.title ::
      (d.prose.map .Paragraph ++ (catMap secToks d.sections ++
        d.refs.map (fun r => MarkdownToken.Reference r.label r.url)))).length) + 1 =
      (d.prose.map MarkdownToken.Paragraph ++ (catMap secToks d.sections ++
        d.refs.map (fun r => MarkdownToken.Reference r.label r.url))).length + 2 := by
    simp
  rw [hlen]
  rw [buildF_step_H1]
  rw [buildF_H1body _ d.prose d.sections d.title _
    (by omega) hsecs' hrest hne]
  rw [if_neg (by simp [shouldStop])]
  rw [buildF_refsRoot _ d.refs (by
    simp only [List.length_append, List.length_map]
    omega)]
  simp [docTree, Node.children]

/-- Flattening distributes over sibling concatenation. -/
theorem flattenL_append (xs ys : List Node) :
    flattenL (xs ++ ys) = flattenL xs ++ flattenL ys := by
  induction xs with
  | nil => simp [flattenL]
  | cons c cs ih =>
    show flattenL (c :: (cs ++ ys)) = _
    rw [flattenL, ih, flattenL]
    simp [List.append_assoc]

/-- Paragraph leaves flatten to their paragraph tokens. -/
theorem flattenL_paraLeaves (prose : List Str) :
    flattenL (prose.map (fun p => Node.mk (some (.Paragraph p)) [])) =
      prose.map MarkdownToken.Paragraph := by
  induction prose with
  | nil => rfl
  | cons p ps ih =>
    simp only [List.map_cons]
    rw [flattenL, ih]
    rfl

/-- Reference leaves flatten to their reference tokens. -/
theorem flattenL_refLeaves (refs : List RefDef) :
    flattenL (refs.map (fun r => Node.mk (some (.Reference r.label r.url)) [])) =
      refs.map (fun r => MarkdownToken.Reference r.label r.url) := by
  induction refs with
  | nil => rfl
  | cons r rs ih =>
    simp only [List.map_cons]
    rw [flattenL, ih]
    rfl

/-- Item leaves flatten to their item tokens. -/
theorem flattenL_liLeaves (items : List (Nat × Str)) :
    flattenL (items.map liLeaf) = items.map itemTok := by
  induction items with
  | nil => rfl
  | cons it its ih =>
    simp only [List.map_cons]
    rw [flattenL, ih]
    rfl

/-- A list node flattens to its item tokens followed by one blank line. -/
theorem flatten_ulNodeOf (items : List (Nat × Str)) :
    flatten (ulNodeOf items) = items.map itemTok ++ [.BlankLine] := by
  show flattenL (items.map liLeaf) ++ [MarkdownToken.BlankLine] = _
  rw [flattenL_liLeaves]

/-- The flattened token run of a subsection. -/
def subFlat (ss : Subsec) : List MarkdownToken :=
  .H3 ss.name :: (ss.items.map itemTok ++ [.BlankLine])

/-- A subsection subtree flattens to its token run. -/
theorem flatten_subNode (ss : Subsec) : flatten (subNode ss) = subFlat ss := by
  show MarkdownToken.H3 ss.name :: flattenL [ulNodeOf ss.items] = _
  rw [flattenL, flattenL, flatten_ulNodeOf]
  simp [subFlat]

/-- The flattened token run of a section. -/
def secFlat (s : DocSection) : List MarkdownToken :=
  .H2 s.heading ::
    ((match s.lead with
      | none => []
      | some items => items.map itemTok ++ [.BlankLine]) ++ catMap subFlat s.subs)

/-- Subsection subtrees flatten to the concatenation of their token runs. -/
theorem flattenL_subNodes (subs : List Subsec) :
    flattenL (subs.map subNode) = catMap subFlat subs := by
  induction subs with
  | nil => rfl
  | cons ss subs' ih =>
    simp only [List.map_cons]
    rw [flattenL, flatten_subNode, ih]
    rfl

/-- A section subtree flattens to its token run. -/
theorem flatten_secNode (s : DocSection) : flatten (secNode s) = secFlat s := by
  show MarkdownToken.H2 s.heading :: flattenL ((match s.lead with
    | none => []
    | some items => [ulNodeOf items]) ++ s.subs.map subNode) = _
  rw [flattenL_append, flattenL_subNodes]
  match hl : s.lead with
  | none => simp [secFlat, flattenL, hl]
  | some items =>
    rw [show flattenL [ulNodeOf items] = flatten (ulNodeOf items) ++ flattenL []
      from rfl]
    rw [flatten_ulNodeOf]
    simp [secFlat, flattenL, hl]

/-- Section subtrees flatten to the concatenation of their token runs. -/
theorem flattenL_secNodes (sections : List DocSection) :
    flattenL (sections.map secNode) = catMap secFlat sections := by
  induction sections with
  | nil => rfl
  | cons s secs ih =>
    simp only [List.map_cons]
    rw [flattenL, flatten_secNode, ih]
    rfl

/-- The flattened head token run of a document (everything before the
reference block). -/
def headFlat (d : Doc) : List MarkdownToken :=
  .H1 d.title :: (d.prose.map .Paragraph ++ catMap secFlat d.sections)

/-- The expected tree flattens to its head run followed by its reference
tokens. -/
theorem flatten_docTree (d : Doc) :
    flatten (docTree d) =
      headFlat d ++ d.refs.map (fun r => MarkdownToken.Reference r.label r.url) := by
  show flattenL (Node.mk (some (.H1 d.title))
      (d.prose.map (fun p => Node.mk (some (.Paragraph p)) []) ++
        d.sections.map secNode) :: d.refs.map
          (fun r => Node.mk (some (.Reference r.label r.url)) [])) = _
  rw [flattenL]
  rw [show flatten (Node.mk (some (.H1 d.title))
      (d.prose.map (fun p => Node.mk (some (.Paragraph p)) []) ++
        d.sections.map secNode)) =
      MarkdownToken.H1 d.title :: flattenL
        (d.prose.map (fun p => Node.mk (some (.Paragraph p)) []) ++
          d.sections.map secNode) from rfl]
  rw [flattenL_append, flattenL_paraLeaves, flattenL_secNodes, flattenL_refLeaves]
  simp [headFlat]

/-- `joinAfter` distributes over concatenation. -/
theorem joinAfter_append (sep : Str) (xs ys : List Str) :
    joinAfter sep (xs ++ ys) = joinAfter sep xs ++ joinAfter sep ys := by
  induction xs with
  | nil => simp [joinAfter]
  | cons x xs' ih =>
    show joinAfter sep (x :: (xs' ++ ys)) = _
    rw [joinAfter, ih, joinAfter]
    simp [List.append_assoc]

/-- Appending the separator to a separated join yields the trailing join. -/
theorem icat_join (sep : Str) (xs : List Str) (h : xs ≠ []) :
    icatSep sep xs ++ sep = joinAfter sep xs := by
  match xs with
  | [x] => simp [icatSep, joinAfter]
  | x :: x2 :: xs' =>
    rw [icatSep_cons_cons, joinAfter]
    rw [← icat_join sep (x2 :: xs') (by simp)]
    simp [List.append_assoc]

/-- A separated join with one extra final element is the trailing join of
the prefix followed by that element. -/
theorem icat_snoc (sep : Str) (y : Str) : ∀ xs : List Str,
    icatSep sep (xs ++ [y]) = joinAfter sep xs ++ y
  | [] => by simp [icatSep, joinAfter]
  | [x] => by
    rw [show ([x] ++ [y] : List Str) = x :: y :: [] by simp]
    rw [icatSep_cons_cons]
    simp [icatSep, joinAfter, List.append_assoc]
  | x :: x2 :: xs' => by
    rw [show ((x :: x2 :: xs') ++ [y] : List Str) = x :: (x2 :: (xs' ++ [y])) by simp]
    have htail : (x2 :: (xs' ++ [y])) = (x2 :: xs') ++ [y] := by simp
    rw [icatSep_cons_cons]
    rw [show icatSep sep (x2 :: (xs' ++ [y])) = icatSep sep ((x2 :: xs') ++ [y])
      by rw [htail]]
    rw [icat_snoc sep y (x2 :: xs')]
    simp [joinAfter, List.append_assoc]

/-- Stripping trailing newlines ignores one appended newline. -/
theorem stripNL_append_newline (s : Str) : stripNL (s ++ ['\n']) = stripNL s := by
  simp [stripNL, List.dropWhile_cons]

/-- The printed line of an item token is its item line. -/
theorem tokenStr_itemTok (it : Nat × Str) : tokenStr (itemTok it) = itemLine it := rfl

/-- The trailing join of the printed item lines and the closing blank line
is the list group text followed by one blank-line separator. -/
theorem joinAfter_listChunk (items : List (Nat × Str)) (hne : items ≠ []) :
    joinAfter ['\n'] ((items.map itemTok ++ [MarkdownToken.BlankLine]).map tokenStr) =
      listGroupText items ++ '\n' :: '\n' :: [] := by
  rw [List.map_append]
  rw [joinAfter_append]
  rw [show ([MarkdownToken.BlankLine].map tokenStr) = [([] : Str)] from rfl]
  rw [show joinAfter ['\n'] [([] : Str)] = ['\n'] by simp [joinAfter]]
  rw [show (items.map itemTok).map tokenStr = items.map itemLine by
    rw [List.map_map]
    rfl]
  rw [← icat_join ['\n'] (items.map itemLine) (by simpa using hne)]
  rw [listGroupText]
  simp [List.append_assoc]

/-- The printed token run of a subsection joins to its groups' blank-line
join. -/
theorem joinAfter_subChunk (ss : Subsec) (hne : ss.items ≠ []) :
    joinAfter ['\n'] ((subFlat ss).map tokenStr) =
      joinAfter ('\n' :: '\n' :: []) (subGroups ss) := by
  show joinAfter ['\n'] (tokenStr (MarkdownToken.H3 ss.name) ::
    (ss.items.map itemTok ++ [MarkdownToken.BlankLine]).map tokenStr) = _
  rw [joinAfter]
  rw [joinAfter_listChunk ss.items hne]
  show _ = ("### ".data ++ ss.name) ++ ('\n' :: '\n' :: []) ++
    joinAfter ('\n' :: '\n' :: []) [listGroupText ss.items]
  rw [show joinAfter ('\n' :: '\n' :: []) [listGroupText ss.items] =
    listGroupText ss.items ++ '\n' :: '\n' :: [] by simp [joinAfter]]
  show "### ".data ++ ss.name ++ ['\n'] ++ ['\n'] ++
    (listGroupText ss.items ++ '\n' :: '\n' :: []) = _
  simp [tokenStr, List.append_assoc]

/-- The groups of a document before the reference block. -/
def headGroups (d : Doc) : List Str :=
  ("# ".data ++ d.title) :: (d.prose ++ catMap secGroups d.sections)

/-- Trailing joins agree unit by unit over concatenated images. -/
theorem joinAfter_catMap_congr {α : Type} (F : α → List MarkdownToken)
    (G : α → List Str) (xs : List α)
    (h : ∀ x ∈ xs, joinAfter ['\n'] ((F x).map tokenStr) =
      joinAfter ('\n' :: '\n' :: []) (G x)) :
    joinAfter ['\n'] ((catMap F xs).map tokenStr) =
      joinAfter ('\n' :: '\n' :: []) (catMap G xs) := by
  induction xs with
  | nil => rfl
  | cons x xs' ih =>
    show joinAfter ['\n'] ((F x ++ catMap F xs').map tokenStr) =
      joinAfter ('\n' :: '\n' :: []) (G x ++ catMap G xs')
    rw [List.map_append, joinAfter_append, joinAfter_append]
    rw [h x (by simp), ih (fun y hy => h y (List.mem_cons_of_mem _ hy))]

/-- The printed token run of a safe section joins to its groups'
blank-line join. -/
theorem joinAfter_secChunk (s : DocSection) (hsafe : secSafe s = true) :
    joinAfter ['\n'] ((secFlat s).map tokenStr) =
      joinAfter ('\n' :: '\n' :: []) (secGroups s) := by
  simp only [secSafe, Bool.and_eq_true] at hsafe
  obtain ⟨⟨hname, hlead⟩, hsubs⟩ := hsafe
  have hsubsChunk : joinAfter ['\n'] ((catMap subFlat s.subs).map tokenStr) =
      joinAfter ('\n' :: '\n' :: []) (catMap subGroups s.subs) := by
    refine joinAfter_catMap_congr subFlat subGroups s.subs (fun ss hss => ?_)
    have := List.all_eq_true.mp hsubs ss hss
    simp only [subSafe, Bool.and_eq_true, decide_eq_true_eq] at this
    exact joinAfter_subChunk ss (by simpa using this.1.2)
  show joinAfter ['\n'] (tokenStr (MarkdownToken.H2 s.heading) ::
    ((match s.lead with
      | none => []
      | some items => items.map itemTok ++ [MarkdownToken.BlankLine]) ++
        catMap subFlat s.subs).map tokenStr) = _
  rw [joinAfter]
  rw [List.map_append, joinAfter_append]
  show _ = ("## ".data ++ s.heading) ++ ('\n' :: '\n' :: []) ++
    joinAfter ('\n' :: '\n' :: [])
      ((match s.lead with
        | none => []
        | some items => [listGroupText items]) ++ catMap subGroups s.subs)
  rw [joinAfter_append]
  match hl : s.lead with
  | none =>
    simp only [List.map_nil]
    rw [hsubsChunk]
    show "## ".data ++ s.heading ++ ['\n'] ++ ['\n'] ++
      (joinAfter ['\n'] [] ++ joinAfter ('\n' :: '\n' :: []) (catMap subGroups s.subs)) = _
    simp [joinAfter, tokenStr, List.append_assoc]
  | some items =>
    rw [hl] at hlead
    simp only [Bool.and_eq_true, decide_eq_true_eq] at hlead
    rw [joinAfter_listChunk items (by simpa using hlead.1)]
    rw [hsubsChunk]
    rw [show joinAfter ('\n' :: '\n' :: []) [listGroupText items] =
      listGroupText items ++ '\n' :: '\n' :: [] by simp [joinAfter]]
    show "## ".data ++ s.heading ++ ['\n'] ++ ['\n'] ++
      ((listGroupText items ++ '\n' :: '\n' :: []) ++
        joinAfter ('\n' :: '\n' :: []) (catMap subGroups s.subs)) = _
    simp [List.append_assoc]

/-- Prose paragraphs printed with their trailing newline join like
blank-line separated groups. -/
theorem joinAfter_prose (prose : List Str) :
    joinAfter ['\n'] (prose.map (fun p => p ++ ['\n'])) =
      joinAfter ('\n' :: '\n' :: []) prose := by
  induction prose with
  | nil => rfl
  | cons p ps ih =>
    simp only [List.map_cons, joinAfter]
    rw [ih]
    simp [List.append_assoc]

/-- The printed head run of a well-formed document joins to the blank-line
join of its head groups. -/
theorem joinAfter_headChunk (d : Doc)
    (hsecs : ∀ s ∈ d.sections, secSafe s = true) :
    joinAfter ['\n'] ((headFlat d).map tokenStr) =
      joinAfter ('\n' :: '\n' :: []) (headGroups d) := by
  show joinAfter ['\n'] (tokenStr (MarkdownToken.H1 d.title) ::
    (d.prose.map MarkdownToken.Paragraph ++ catMap secFlat d.sections).map tokenStr) = _
  rw [joinAfter]
  rw [List.map_append, joinAfter_append]
  rw [show (d.prose.map MarkdownToken.Paragraph).map tokenStr =
    d.prose.map (fun p => p ++ ['\n']) by rw [List.map_map]; rfl]
  rw [joinAfter_prose]
  rw [joinAfter_catMap_congr secFlat secGroups d.sections
    (fun s hs => joinAfter_secChunk s (hsecs s hs))]
  show "# ".data ++ d.title ++ ['\n'] ++ ['\n'] ++
    (joinAfter ('\n' :: '\n' :: []) d.prose ++
      joinAfter ('\n' :: '\n' :: []) (catMap secGroups d.sections)) = _
  rw [show joinAfter ('\n' :: '\n' :: []) (headGroups d) =
    ("# ".data ++ d.title) ++ ('\n' :: '\n' :: []) ++
      joinAfter ('\n' :: '\n' :: []) (d.prose ++ catMap secGroups d.sections)
    from rfl]
  rw [joinAfter_append]
  simp [List.append_assoc]

/-- The printed reference tokens join to the reference block followed by a
final newline. -/
theorem joinAfter_refsChunk (refs : List RefDef) (hne : refs ≠ []) :
    joinAfter ['\n']
      ((refs.map (fun r => MarkdownToken.Reference r.label r.url)).map tokenStr) =
      icatSep ['\n'] (refs.map refLine) ++ ['\n'] := by
  rw [show (refs.map (fun r => MarkdownToken.Reference r.label r.url)).map tokenStr =
    refs.map refLine by rw [List.map_map]; rfl]
  rw [icat_join ['\n'] (refs.map refLine) (by simpa using hne)]

/-- With a reference block, the document groups are the head groups plus
the block. -/
theorem docGroups_refs_ne (d : Doc) (h : d.refs ≠ []) :
    docGroups d = headGroups d ++ [icatSep ['\n'] (d.refs.map refLine)] := by
  match hr : d.refs, h with
  | r :: rs, _ =>
    simp only [docGroups, hr]
    simp [headGroups, List.append_assoc]

/-- Without references, the document groups are exactly the head groups. -/
theorem docGroups_refs_nil (d : Doc) (h : d.refs = []) :
    docGroups d = headGroups d := by
  simp only [docGroups, h]
  simp [headGroups]

/-- Rendering the expected tree of a well-formed document reproduces its
text up to trailing newlines. -/
theorem render_docTree (d : Doc) (h : wellFormedDoc d = true) :
    stripNL (render (docTree d)) = stripNL (docText d) := by
  have hwf := h
  simp only [wellFormedDoc, Bool.and_eq_true] at hwf
  obtain ⟨⟨⟨⟨htitle, hprose⟩, hsecs⟩, hrefs⟩, hbody⟩ := hwf
  have hsecs' : ∀ s ∈ d.sections, secSafe s = true :=
    fun s hs => List.all_eq_true.mp hsecs s hs
  have hhead := joinAfter_headChunk d hsecs'
  have hflat : (flatten (docTree d)).map tokenStr =
      (headFlat d).map tokenStr ++
        (d.refs.map (fun r => MarkdownToken.Reference r.label r.url)).map tokenStr := by
    rw [flatten_docTree, List.map_append]
  have hRne : (flatten (docTree d)).map tokenStr ≠ [] := by
    rw [hflat]
    simp [headFlat]
  have hrender : render (docTree d) ++ ['\n'] =
      joinAfter ['\n'] ((flatten (docTree d)).map tokenStr) := by
    rw [render]
    exact icat_join ['\n'] _ hRne
  match hr : d.refs with
  | [] =>
    have hE : joinAfter ['\n'] ((flatten (docTree d)).map tokenStr) =
        (docText d ++ ['\n']) ++ ['\n'] := by
      rw [hflat, hr]
      simp only [List.map_nil, List.append_nil]
      rw [hhead]
      rw [docText, docGroups_refs_nil d hr]
      rw [← icat_join ('\n' :: '\n' :: []) (headGroups d) (by simp [headGroups])]
      simp [List.append_assoc]
    have e : render (docTree d) ++ ['\n'] = (docText d ++ ['\n']) ++ ['\n'] := by
      rw [hrender, hE]
    have := congrArg stripNL e
    simp only [stripNL_append_newline] at this
    exact this
  | r :: rs =>
    have hE : joinAfter ['\n'] ((flatten (docTree d)).map tokenStr) =
        docText d ++ ['\n'] := by
      rw [hflat, hr]
      rw [joinAfter_append]
      rw [hhead]
      rw [joinAfter_refsChunk (r :: rs) (by simp)]
      rw [docText, docGroups_refs_ne d (by rw [hr]; simp)]
      rw [hr]
      rw [icat_snoc ('\n' :: '\n' :: []) (icatSep ['\n'] ((r :: rs).map refLine))
        (headGroups d)]
      simp [List.append_assoc]
    have e : render (docTree d) ++ ['\n'] = docText d ++ ['\n'] := by
      rw [hrender, hE]
    have := congrArg stripNL e
    simp only [stripNL_append_newline] at this
    exact this

/-- C1: for every valid changelog document text — the text of any document
in the persisted conventions (level-1 title, prose paragraphs, non-empty
level-2 sections with level-3 category lists, trailing reference block),
as captured by `wellFormedDoc` — parsing produces the expected tree and
rendering that tree yields the original text again modulo normalization of
the trailing newline: `render(parse(text)) == text` up to `stripNL`. -/
theorem c1_parse_render_roundtrip (d : Doc) (h : wellFormedDoc d = true) :
    parseDoc (docText d) = .ok (docTree d) ∧
    stripNL (render (docTree d)) = stripNL (docText d) := by
  constructor
  · rw [parseDoc, lex_docText d h]
    show Except.ok (Node.mk none (buildNodes (docToks d) none).1) = _
    rw [buildNodes_docToks d h]
    rfl
  · exact render_docTree d h

/-- A concrete changelog document exercising every construct of the
grammar: title, prose, a placeholder-only Unreleased section, a released
section with a category list (with an indented item), and two reference
definitions. -/
def wdoc : Doc :=
  { title := "Changelog".data
    prose := ["All notable changes.".data]
    sections := [
      { heading := "[Unreleased]".data
        lead := some [(0, "Nothing yet!".data)]
        subs := [] },
      { heading := "[1.0.0] - 2024-01-01".data
        lead := none
        subs := [{ name := "Added".data
                   items := [(0, "Initial release".data), (2, "Nested note".data)] }] }]
    refs := [
      { label := "unreleased".data
        url := "https://github.com/o/r/compare/v1.0.0...HEAD".data },
      { label := "1.0.0".data
        url := "https://github.com/o/r/releases/tag/v1.0.0".data }] }

theorem c1_parse_render_roundtrip_witness :
    parseDoc (docText wdoc) = .ok (docTree wdoc) ∧
    stripNL (render (docTree wdoc)) = stripNL (docText wdoc) :=
  c1_parse_render_roundtrip wdoc (by decide)
